import Mathlib

/-!
Verification of the aiocouchdb multipart/feeds layer
(`aiocouchdb/multipart.py`, `aiocouchdb/feeds.py`) against its
natural-language specification.

Bytes are modelled as `List Nat` (each entry one octet); Python byte
strings, `bytearray`s and the latin1-encoded header text are all byte
lists here.  The shared content stream is a `ByteStream` threaded
explicitly through every operation; coroutine suspension points are
invisible to the sequential semantics.  Fallible operations return
`Except RErr`; Python `assert` failures map to `.assertError`,
`ValueError` to `.valueError`, `KeyError` to `.keyError`,
`AttributeError` to `.attrError` and `TypeError` to `.typeError`.
Unbounded `while` loops take an explicit fuel argument and answer
`.error .fuel` when it runs out; theorems quantify over any
sufficiently large fuel.
-/

namespace Aiocouchdb

/-- A byte string. -/
abbrev Bytes := List Nat

/-- ASCII bytes of a Lean string literal (all our literals are ASCII). -/
def strBytes (s : String) : Bytes := s.toList.map Char.toNat

def CRb : Nat := 13
def LFb : Nat := 10

/-- `b` is one of `\r`, `\n` (the argument of `bytes.rstrip(b'\r\n')`). -/
def isCRLFByte (b : Nat) : Bool := b = 13 || b = 10

/-- Python bytes whitespace: space, tab, newline, carriage return,
vertical tab, form feed. -/
def isWSByte (b : Nat) : Bool :=
  b = 32 || b = 9 || b = 10 || b = 13 || b = 11 || b = 12

/-- Characters stripped by `value.strip(' "')` in mimetype param parsing. -/
def isQSByte (b : Nat) : Bool := b = 32 || b = 34

/-- Drop trailing bytes satisfying `P` (Python `rstrip`). -/
def dropTrailing (P : Nat → Bool) (l : Bytes) : Bytes :=
  (l.reverse.dropWhile P).reverse

/-- Python `line.rstrip(b'\r\n')`. -/
def rstripCRLF (l : Bytes) : Bytes := dropTrailing isCRLFByte l

/-- Python `chunk.rstrip()` (all trailing whitespace). -/
def rstripWS (l : Bytes) : Bytes := dropTrailing isWSByte l

/-- Python `chunk.strip()` (both-ends whitespace strip). -/
def stripWS (l : Bytes) : Bytes := dropTrailing isWSByte (l.dropWhile isWSByte)

/-- Python `value.strip(' "')`. -/
def stripQS (l : Bytes) : Bytes := dropTrailing isQSByte (l.dropWhile isQSByte)

/-- ASCII lowercase of one byte. -/
def lowerByte (b : Nat) : Nat := if 65 ≤ b ∧ b ≤ 90 then b + 32 else b

/-- ASCII lowercase of a byte string (`str.lower()` on ASCII data). -/
def lowerBytes (l : Bytes) : Bytes := l.map lowerByte

/-- Python `s.split(sep)`: always returns at least one (possibly empty)
segment; separators are not kept. -/
def splitOnB (c : Nat) : Bytes → List Bytes
  | [] => [[]]
  | b :: rest =>
    if b = c then [] :: splitOnB c rest
    else
      match splitOnB c rest with
      | [] => [[b]]
      | h :: t => (b :: h) :: t

/-- Python `s.split(sep, 1)` when the separator occurs: the text before the
first `c` and the text after it.  `none` when `c` does not occur. -/
def splitFirst (c : Nat) : Bytes → Option (Bytes × Bytes)
  | [] => none
  | b :: rest =>
    if b = c then some ([], rest)
    else
      match splitFirst c rest with
      | none => none
      | some (x, y) => some (b :: x, y)

/-- Decimal digit value of an ASCII byte. -/
def digitVal? (b : Nat) : Option Nat :=
  if 48 ≤ b ∧ b ≤ 57 then some (b - 48) else none

def parseNatAux : Bytes → Nat → Option Nat
  | [], acc => some acc
  | b :: rest, acc =>
    match digitVal? b with
    | none => none
    | some d => parseNatAux rest (acc * 10 + d)

/-- Python `int(s)` restricted to unsigned decimal digit strings (the only
shape this codebase produces for `Content-Length`). -/
def parseNat? (l : Bytes) : Option Nat :=
  if l = [] then none else parseNatAux l 0

/-- Little-endian ASCII decimal digits of `n` (empty for 0); the fuel is
structural and any `fuel > n` is exact. -/
def natDigitsAux : Nat → Nat → Bytes
  | 0, _ => []
  | fuel + 1, n =>
    if n = 0 then [] else (n % 10 + 48) :: natDigitsAux fuel (n / 10)

/-- Python `str(n)` for a natural number, as ASCII bytes. -/
def natDecimal (n : Nat) : Bytes :=
  if n = 0 then [48] else (natDigitsAux (n + 1) n).reverse

/-! ### The content stream

Models the aiohttp stream-reader collaborator: sequential `read(n)` and
`readline()` over a byte sequence.  `readline` returns everything up to
and including the first `\n` (or all remaining bytes when there is no
newline; empty at end of stream), exactly the Python semantics. -/

structure ByteStream where
  data : Bytes
deriving DecidableEq, Repr

/-- Split off one `\n`-terminated line. -/
def splitLine : Bytes → Bytes × Bytes
  | [] => ([], [])
  | b :: rest =>
    if b = LFb then ([b], rest)
    else
      let (l, r) := splitLine rest
      (b :: l, r)

def ByteStream.readline (s : ByteStream) : Bytes × ByteStream :=
  let (l, r) := splitLine s.data
  (l, ⟨r⟩)

/-- `content.read(n)`: up to `n` bytes (fewer only at end of stream). -/
def ByteStream.read (s : ByteStream) (n : Nat) : Bytes × ByteStream :=
  (s.data.take n, ⟨s.data.drop n⟩)

/-! ### Headers

`CIMultiDict`: an ordered multi-mapping with case-insensitive string
keys.  `get` returns the first value whose key matches case-insensitively. -/

abbrev Headers := List (Bytes × Bytes)

def hget (h : Headers) (name : Bytes) : Option Bytes :=
  (h.find? (fun p => lowerBytes p.1 = lowerBytes name)).map (·.2)

def CONTENT_TYPE : Bytes := strBytes "Content-Type"
def CONTENT_LENGTH : Bytes := strBytes "Content-Length"
def CONTENT_ENCODING : Bytes := strBytes "Content-Encoding"
def CONTENT_DISPOSITION : Bytes := strBytes "Content-Disposition"

/-! ### `aiohttp.helpers.parse_mimetype`

External collaborator used for `Content-Type` dissection, modelled from
its documented behavior: split on `;`, first segment is the
stripped+lowercased full type (split at `/` into type and subtype), the
remaining segments are `key=value` parameters with lowercased stripped
keys and values stripped of spaces and double quotes. -/

/-- Stripped, lowercased full type (the text before the first `;`). -/
def fullTypeOf (ctype : Bytes) : Bytes :=
  match splitOnB 59 ctype with
  | [] => []
  | h :: _ =>
    let ft := lowerBytes (stripWS h)
    if ft = [42] then strBytes "*/*" else ft

/-- Top-level media type (`mtype` of `parse_mimetype`); empty input gives
the empty type. -/
def mimeTypeOf (ctype : Bytes) : Bytes :=
  if ctype = [] then []
  else
    match splitFirst 47 (fullTypeOf ctype) with
    | some (m, _) => m
    | none => fullTypeOf ctype

/-- Parameter list of `parse_mimetype` (in segment order). -/
def mimeParams (ctype : Bytes) : List (Bytes × Bytes) :=
  if ctype = [] then []
  else
    (splitOnB 59 ctype).tail.map fun seg =>
      match splitFirst 61 seg with
      | some (k, v) => (lowerBytes (stripWS k), stripQS v)
      | none => (lowerBytes (stripWS seg), [])

/-- `dict(params)[key]` lookup: the last binding wins. -/
def pLookup (ps : List (Bytes × Bytes)) (k : Bytes) : Option Bytes :=
  (ps.reverse.find? (·.1 = k)).map (·.2)

/-! ### Errors -/

inductive RErr where
  | fuel
  | assertError
  | valueError
  | keyError
  | attrError
  | typeError
deriving DecidableEq, Repr

/-! ### `BodyPartReader`

State of `multipart.BodyPartReader`: the boundary (already prefixed with
`--`, as stored by `MultipartReader._boundary`), the part headers, the
`_at_eof` flag, `_length` (from `Content-Length`), `_read_bytes`, and the
`_unread` pushback list. -/

structure BPReader where
  boundary : Bytes
  headers : Headers
  atEof : Bool
  lengthOpt : Option Nat
  readBytes : Nat
  unread : List Bytes
deriving DecidableEq, Repr

/-- `BodyPartReader.__init__`: `_length = int(headers.get(CONTENT_LENGTH))`
when the header is present (`ValueError` on a non-numeric value),
otherwise `None`. -/
def mkBPReader (boundary : Bytes) (headers : Headers) : Except RErr BPReader :=
  match hget headers CONTENT_LENGTH with
  | none => .ok ⟨boundary, headers, false, none, 0, []⟩
  | some v =>
    match parseNat? v with
    | none => .error .valueError
    | some n => .ok ⟨boundary, headers, false, some n, 0, []⟩

def chunkSizeDefault : Nat := 8192

/-- `BodyPartReader.readline`: one line from the stream; a line whose
`rstrip(b'\r\n')` equals the boundary or the final boundary flips
`_at_eof`, is appended to `_unread`, and yields the empty string. -/
def BPReader.readlineStep (r : BPReader) (s : ByteStream) :
    Bytes × BPReader × ByteStream :=
  if r.atEof then ([], r, s)
  else
    let (line, s') := s.readline
    if r.boundary.isPrefixOf line then
      let sline := rstripCRLF line
      if sline = r.boundary ∨ sline = r.boundary ++ [45, 45] then
        ([], { r with atEof := true, unread := r.unread ++ [line] }, s')
      else (line, r, s')
    else (line, r, s')

/-- `BodyPartReader.read_chunk(size)`: empty at eof; asserts that
`Content-Length` was declared; reads `min(size, length - read_bytes)`
bytes and advances `_read_bytes` by that amount (whatever the stream
actually returned), flipping `_at_eof` on exact exhaustion. -/
def BPReader.readChunk (r : BPReader) (s : ByteStream) (size : Nat) :
    Except RErr (Bytes × BPReader × ByteStream) :=
  if r.atEof then .ok ([], r, s)
  else
    match r.lengthOpt with
    | none => .error .assertError
    | some len =>
      let csize := min size (len - r.readBytes)
      let (chunk, s') := s.read csize
      let rb := r.readBytes + csize
      .ok (chunk,
           { r with readBytes := rb, atEof := decide (rb = len) }, s')

/-- The `while not self._at_eof: data.extend(readline())` loop of
`BodyPartReader.read` in the boundary-delimited case. -/
def BPReader.readLines (fuel : Nat) (r : BPReader) (s : ByteStream)
    (acc : Bytes) : Except RErr (Bytes × BPReader × ByteStream) :=
  match fuel with
  | 0 => .error .fuel
  | fuel + 1 =>
    if r.atEof then .ok (acc, r, s)
    else
      let (line, r', s') := r.readlineStep s
      BPReader.readLines fuel r' s' (acc ++ line)

/-- The `while not self._at_eof: data.extend(read_chunk(chunk_size))`
loop of `BodyPartReader.read` in the length-delimited case. -/
def BPReader.readChunks (fuel : Nat) (r : BPReader) (s : ByteStream)
    (acc : Bytes) : Except RErr (Bytes × BPReader × ByteStream) :=
  match fuel with
  | 0 => .error .fuel
  | fuel + 1 =>
    if r.atEof then .ok (acc, r, s)
    else
      match r.readChunk s chunkSizeDefault with
      | .error e => .error e
      | .ok (chunk, r', s') => BPReader.readChunks fuel r' s' (acc ++ chunk)

/-- `BodyPartReader.read` (without the optional decode step): empty at
eof; line loop when `_length` is `None`, chunk loop plus the
`assert b'\r\n' == content.readline()` integrity check otherwise. -/
def BPReader.read (fuel : Nat) (r : BPReader) (s : ByteStream) :
    Except RErr (Bytes × BPReader × ByteStream) :=
  if r.atEof then .ok ([], r, s)
  else
    match r.lengthOpt with
    | none => BPReader.readLines fuel r s []
    | some _ =>
      match BPReader.readChunks fuel r s [] with
      | .error e => .error e
      | .ok (data, r', s') =>
        let (term, s'') := s'.readline
        if term = [CRb, LFb] then .ok (data, r', s'')
        else .error .assertError

/-- `BodyPartReader.release`: the same loops as `read` with the data
discarded (reader and stream evolve identically). -/
def BPReader.release (fuel : Nat) (r : BPReader) (s : ByteStream) :
    Except RErr (BPReader × ByteStream) :=
  match BPReader.read fuel r s with
  | .error e => .error e
  | .ok (_, r', s') => .ok (r', s')

/-- Result of `BodyPartReader.decode`: which decoder was applied to the
data.  The zlib inflate calls are external; the constructors record the
dispatch target (`plain` = returned unchanged, `inflateRaw` =
`zlib.decompress(data, -MAX_WBITS)`, `gunzip` =
`zlib.decompress(data, 16 + MAX_WBITS)`). -/
inductive Decoded where
  | plain (data : Bytes)
  | inflateRaw (data : Bytes)
  | gunzip (data : Bytes)
deriving DecidableEq, Repr

/-- `BodyPartReader.decode`: data unchanged when the `Content-Encoding`
header is falsy (absent or empty), else attribute lookup of
`decode_<encoding>` — only `deflate` and `gzip` exist, anything else is
an `AttributeError`. -/
def BPReader.decode (r : BPReader) (data : Bytes) : Except RErr Decoded :=
  match hget r.headers CONTENT_ENCODING with
  | none => .ok (.plain data)
  | some enc =>
    if enc = [] then .ok (.plain data)
    else if enc = strBytes "deflate" then .ok (.inflateRaw data)
    else if enc = strBytes "gzip" then .ok (.gunzip data)
    else .error .attrError

/-! ### `MultipartReader`

`_get_part_reader` dispatches on the part's own `Content-Type`: a
`multipart/*` part becomes a nested `MultipartReader` over the same
content stream, anything else a `BodyPartReader` scoped to the outer
boundary.  A part is therefore either a body-part reader or the state of
a nested multipart reader (which may recursively hold its own last
part). -/

inductive PReader where
  | body (r : BPReader)
  | multi (boundary : Bytes) (atEof : Bool) (unread : List Bytes)
      (lastPart : Option PReader)

/-- State of `multipart.MultipartReader`: `_boundary` (already prefixed
with `--`), `_at_eof`, `_unread`, `_last_part`. -/
structure MReader where
  boundary : Bytes
  atEof : Bool
  unread : List Bytes
  lastPart : Option PReader

def MReader.toPart (m : MReader) : PReader :=
  .multi m.boundary m.atEof m.unread m.lastPart

/-- `at_eof()` of either kind of part. -/
def PReader.atEofP : PReader → Bool
  | .body r => r.atEof
  | .multi _ e _ _ => e

/-- `_unread` of either kind of part. -/
def PReader.unreadP : PReader → List Bytes
  | .body r => r.unread
  | .multi _ _ u _ => u

/-- `MultipartReader._get_boundary`: dissect `Content-Type`, assert the
top-level type is `multipart`, require the `boundary` parameter, reject
boundaries longer than 70 characters. -/
def getBoundaryOf (headers : Headers) : Except RErr Bytes :=
  match hget headers CONTENT_TYPE with
  | none => .error .keyError
  | some ct =>
    if mimeTypeOf ct = strBytes "multipart" then
      match pLookup (mimeParams ct) (strBytes "boundary") with
      | none => .error .valueError
      | some b => if b.length > 70 then .error .valueError else .ok b
    else .error .assertError

/-- `MultipartReader.__init__`: `_boundary = ('--' + boundary).encode()`. -/
def mkMReader (headers : Headers) : Except RErr MReader :=
  match getBoundaryOf headers with
  | .error e => .error e
  | .ok b => .ok ⟨[45, 45] ++ b, false, [], none⟩

/-- `MultipartReader._readline`: pop the most recently pushed unread line
if any, else read from the content stream. -/
def MReader.mReadline (m : MReader) (s : ByteStream) :
    Bytes × MReader × ByteStream :=
  match m.unread.getLast? with
  | some l => (l, { m with unread := m.unread.dropLast }, s)
  | none =>
    let (line, s') := s.readline
    (line, m, s')

/-- `MultipartReader._read_boundary`: `rstrip()` the next line; the
boundary continues, the final boundary flips `_at_eof`, anything else is
a `ValueError`. -/
def MReader.readBoundaryStep (m : MReader) (s : ByteStream) :
    Except RErr (MReader × ByteStream) :=
  let (line, m1, s1) := m.mReadline s
  let chunk := rstripWS line
  if chunk = m1.boundary then .ok (m1, s1)
  else if chunk = m1.boundary ++ [45, 45] then
    .ok ({ m1 with atEof := true }, s1)
  else .error .valueError

/-- `MultipartReader._read_headers`: read stripped lines from the content
stream (bypassing `_unread`) until a blank one, parsing each as a
`Name: value` pair (the `HttpParser.parse_headers` collaborator). -/
def readHeadersLoop (fuel : Nat) (s : ByteStream) (acc : Headers) :
    Except RErr (Headers × ByteStream) :=
  match fuel with
  | 0 => .error .fuel
  | fuel + 1 =>
    let (line, s') := s.readline
    let chunk := stripWS line
    if chunk = [] then .ok (acc, s')
    else
      match splitFirst 58 chunk with
      | none => .error .valueError
      | some (n, v) =>
        readHeadersLoop fuel s' (acc ++ [(stripWS n, stripWS v)])

/-- `MultipartReader._get_part_reader`: dispatch on the part's own
`Content-Type` top-level media type. -/
def getPartReader (outerBoundary : Bytes) (headers : Headers) :
    Except RErr PReader :=
  let ct := (hget headers CONTENT_TYPE).getD []
  if mimeTypeOf ct = strBytes "multipart" then
    match getBoundaryOf headers with
    | .error e => .error e
    | .ok b => .ok (.multi ([45, 45] ++ b) false [] none)
  else
    match mkBPReader outerBoundary headers with
    | .error e => .error e
    | .ok r => .ok (.body r)

mutual

/-- `MultipartReader.next`: nothing when terminal; otherwise release the
previous part, read and validate the boundary line, stop on the final
boundary, else parse the header block and dispatch the new part. -/
def MReader.next (fuel : Nat) (m : MReader) (s : ByteStream) :
    Except RErr (Option PReader × MReader × ByteStream) :=
  match fuel with
  | 0 => .error .fuel
  | fuel + 1 =>
    if m.atEof then .ok (none, m, s)
    else
      match MReader.maybeReleaseLastPart fuel m s with
      | .error e => .error e
      | .ok (m1, s1) =>
        match m1.readBoundaryStep s1 with
        | .error e => .error e
        | .ok (m2, s2) =>
          if m2.atEof then .ok (none, m2, s2)
          else
            match readHeadersLoop fuel s2 [] with
            | .error e => .error e
            | .ok (hs, s3) =>
              match getPartReader m2.boundary hs with
              | .error e => .error e
              | .ok p => .ok (some p, { m2 with lastPart := some p }, s3)

/-- `MultipartReader._maybe_release_last_part`: drain a not-yet-finished
previous part, then fold its `_unread` pushback into our own. -/
def MReader.maybeReleaseLastPart (fuel : Nat) (m : MReader)
    (s : ByteStream) : Except RErr (MReader × ByteStream) :=
  match fuel with
  | 0 => .error .fuel
  | fuel + 1 =>
    match m.lastPart with
    | none => .ok (m, s)
    | some p =>
      if p.atEofP then
        .ok ({ m with unread := m.unread ++ p.unreadP, lastPart := none }, s)
      else
        match PReader.releaseP fuel p s with
        | .error e => .error e
        | .ok (p', s') =>
          .ok ({ m with unread := m.unread ++ p'.unreadP,
                        lastPart := none }, s')

/-- `release()` of either kind of part. -/
def PReader.releaseP (fuel : Nat) (p : PReader) (s : ByteStream) :
    Except RErr (PReader × ByteStream) :=
  match fuel with
  | 0 => .error .fuel
  | fuel + 1 =>
    match p with
    | .body r =>
      match BPReader.release fuel r s with
      | .error e => .error e
      | .ok (r', s') => .ok (.body r', s')
    | .multi b e u lp =>
      match MReader.mRelease fuel ⟨b, e, u, lp⟩ s with
      | .error e => .error e
      | .ok (m', s') => .ok (m'.toPart, s')

/-- `MultipartReader.release`: read parts to the void until terminal. -/
def MReader.mRelease (fuel : Nat) (m : MReader) (s : ByteStream) :
    Except RErr (MReader × ByteStream) :=
  match fuel with
  | 0 => .error .fuel
  | fuel + 1 =>
    if m.atEof then .ok (m, s)
    else
      match MReader.next fuel m s with
      | .error e => .error e
      | .ok (op, m', s') =>
        match op with
        | none => .ok (m', s')
        | some p =>
          match PReader.releaseP fuel p s' with
          | .error e => .error e
          | .ok (p', s'') =>
            MReader.mRelease fuel { m' with lastPart := some p' } s''

end

/-! ### `BodyPartWriter` / `MultipartWriter`

Payloads are carried as the byte strings the Python serializers emit:
`raw` is a `bytes` object, `text` a `str` already encoded with its
charset (`_serialize_str`), `json` the `json.dumps(..)` encoding of the
object (`_serialize_json`), and `ioStream` an `io.IOBase` whose
successive non-empty `read(chunk_size)` results are `chunks` and whose
size is obtainable via `fstat`/`BytesIO` exactly when `sizeKnown`
(`_guess_content_length`). -/

inductive PartPayload where
  | raw (d : Bytes)
  | text (d : Bytes)
  | json (d : Bytes)
  | ioStream (chunks : List Bytes) (sizeKnown : Bool)
deriving DecidableEq, Repr

/-- A `BodyPartWriter`: headers plus payload. -/
structure PartW where
  headers : Headers
  payload : PartPayload
deriving DecidableEq, Repr

/-- `BodyPartWriter._guess_content_length`: byte length for `bytes`,
stream size for seekable/`BytesIO` streams, `None` otherwise. -/
def guessContentLength? : PartPayload → Option Nat
  | .raw d => some d.length
  | .ioStream chunks known =>
    if known then some (chunks.map List.length).sum else none
  | _ => none

/-- `BodyPartWriter._guess_content_type`: `text/plain; charset=utf-8` for
`str`, `application/octet-stream` otherwise (none of our modelled
payloads carries a `name` attribute). -/
def guessContentType : PartPayload → Bytes
  | .text _ => strBytes "text/plain; charset=utf-8"
  | _ => strBytes "application/octet-stream"

/-- `BodyPartWriter._fill_headers_with_defaults`: add `Content-Length`
and `Content-Type` when absent (`Content-Disposition` is only added for
streams with a file name, which our payloads do not carry). -/
def fillHeaders (h : Headers) (p : PartPayload) : Headers :=
  let h1 :=
    if hget h CONTENT_LENGTH = none then
      match guessContentLength? p with
      | some n => h ++ [(CONTENT_LENGTH, natDecimal n)]
      | none => h
    else h
  if hget h1 CONTENT_TYPE = none then
    h1 ++ [(CONTENT_TYPE, guessContentType p)]
  else h1

/-- `: ` between name and value, `\r\n` between header lines
(`b'\r\n'.join(b': '.join(item) ...)`). -/
def headerBlock : Headers → Bytes
  | [] => []
  | [p] => p.1 ++ [58, 32] ++ p.2
  | p :: rest => p.1 ++ [58, 32] ++ p.2 ++ [CRb, LFb] ++ headerBlock rest

/-- The payload chunks of `BodyPartWriter.serialize` after the header
block: `_serialize_bytes` / `_serialize_str` / `_serialize_json` yield
one chunk, `_serialize_io` one chunk per stream read. -/
def payloadChunks : PartPayload → List Bytes
  | .raw d => [d]
  | .text d => [d]
  | .json d => [d]
  | .ioStream chunks _ => chunks

/-- `BodyPartWriter.serialize`: optional header block, the blank-line
separator, the encoded payload, a trailing `\r\n`. -/
def PartW.serialize (p : PartW) : List Bytes :=
  (if p.headers.isEmpty then [] else [headerBlock p.headers])
    ++ [[CRb, LFb, CRb, LFb]]
    ++ payloadChunks p.payload
    ++ [[CRb, LFb]]

/-- `MultipartWriter`: its `CIMultiDict` headers (holding the
`multipart/...; boundary=...` content type) and ordered parts. -/
structure MWriter where
  headers : Headers
  parts : List PartW
deriving DecidableEq, Repr

/-- `MultipartWriter.__init__` with subtype `mixed` and an explicit
boundary. -/
def mkWriter (boundary : Bytes) (parts : List PartW) : MWriter :=
  ⟨[(CONTENT_TYPE, strBytes "multipart/mixed; boundary=" ++ boundary)],
   parts⟩

/-- The `boundary` property: the `boundary` parameter of the writer's own
`Content-Type` header. -/
def MWriter.boundary (w : MWriter) : Bytes :=
  (pLookup (mimeParams ((hget w.headers CONTENT_TYPE).getD []))
    (strBytes "boundary")).getD []

/-- `MultipartWriter.serialize`: `b''` alone for an empty writer; else
for every part `b'--' + boundary + b'\r\n'` followed by the part's
chunks, then (the for-else clause) `b'--' + boundary + b'--\r\n'` and a
final `b''`. -/
def MWriter.serialize (w : MWriter) : List Bytes :=
  if w.parts.isEmpty then [[]]
  else
    (w.parts.flatMap fun p =>
      ([45, 45] ++ w.boundary ++ [CRb, LFb]) :: p.serialize)
    ++ [[45, 45] ++ w.boundary ++ [45, 45] ++ [CRb, LFb], []]

/-- `append(obj)` for a `bytes` payload with no caller headers. -/
def appendRaw (d : Bytes) : PartW :=
  ⟨fillHeaders [] (.raw d), .raw d⟩

/-- `append(obj)` for a `str` payload (given already encoded) with no
caller headers. -/
def appendText (d : Bytes) : PartW :=
  ⟨fillHeaders [] (.text d), .text d⟩

/-- `append_json(obj)`: forces `Content-Type: application/json`, payload
is the `json.dumps` encoding. -/
def appendJson (d : Bytes) : PartW :=
  ⟨fillHeaders [(CONTENT_TYPE, strBytes "application/json")] (.json d),
   .json d⟩

/-! ### `Feed` (`aiocouchdb/feeds.py`)

The producer task strips each chunk read from the source, enqueues the
non-empty ones, and on end-of-stream enqueues a `None` sentinel and sets
`_eof`.  The model below is the quiescent state in which the
single-threaded producer has already drained the whole source (the only
state a sequential semantics can observe between `next()` calls). -/

structure Feed where
  queue : List (Option Bytes)
  eof : Bool
deriving DecidableEq, Repr

/-- The feed state after `_loop` has consumed the whole source
`chunks`. -/
def feedOfSource (chunks : List Bytes) : Feed :=
  ⟨(((chunks.map stripWS).filter (· ≠ [])).map some) ++ [none], true⟩

/-- `Feed.is_active`: `not (self._eof and self._queue.empty())`. -/
def Feed.isActive (f : Feed) : Bool := !(f.eof && f.queue.isEmpty)

/-- `Feed.next`: `None` without touching the queue when inactive, else
`queue.get()` (which in the quiescent state never blocks: the sentinel
is present whenever the feed is still active with an empty backlog). -/
def Feed.next (f : Feed) : Option Bytes × Feed :=
  if !f.isActive then (none, f)
  else
    match f.queue with
    | [] => (none, f)
    | q :: rest => (q, ⟨rest, f.eof⟩)

/-- Repeatedly call `next` and collect chunks until the sentinel. -/
def Feed.drain (fuel : Nat) (f : Feed) : List Bytes :=
  match fuel with
  | 0 => []
  | fuel + 1 =>
    match f.next with
    | (none, _) => []
    | (some c, f') => c :: Feed.drain fuel f'

/-! ### Round-trip driver

The canonical client loop over a `MultipartReader`: call `next()`, read
each returned body part in full with `read()`, and stop when `next()`
yields nothing.  Because the Python reader mutates `self._last_part` in
place, the updated part state is threaded back into `lastPart` before
the following `next()` call.  (The driver only consumes flat bodies —
nested multipart parts do not occur in the round-trip claims.) -/

def readAllParts (fuel : Nat) (m : MReader) (s : ByteStream) :
    Except RErr (List (Headers × Bytes)) :=
  match fuel with
  | 0 => .error .fuel
  | fuel + 1 =>
    match MReader.next fuel m s with
    | .error e => .error e
    | .ok (none, _, _) => .ok []
    | .ok (some (.multi _ _ _ _), _, _) => .error .typeError
    | .ok (some (.body r), m', s') =>
      match BPReader.read fuel r s' with
      | .error e => .error e
      | .ok (data, r', s'') =>
        match readAllParts fuel { m' with lastPart := some (.body r') } s'' with
        | .error e => .error e
        | .ok rest => .ok ((r.headers, data) :: rest)

/-- The three payload shapes quantified over by the round-trip claim:
raw bytes, text (appended via `append`), JSON (appended via
`append_json`); each carried as the bytes its serializer emits. -/
inductive PartSpec where
  | raw (d : Bytes)
  | text (d : Bytes)
  | json (d : Bytes)
deriving DecidableEq, Repr

def PartSpec.toPartW : PartSpec → PartW
  | .raw d => appendRaw d
  | .text d => appendText d
  | .json d => appendJson d

/-- The payload bytes `read()` actually returns for each appended part:
length-delimited raw parts come back exactly; boundary-delimited text
and JSON parts come back with the writer's trailing `\r\n` included. -/
def PartSpec.echoedPayload : PartSpec → Bytes
  | .raw d => d
  | .text d => d ++ [CRb, LFb]
  | .json d => d ++ [CRb, LFb]

/-! ### `calc_content_length` -/

/-- Modelled from the spec: `MultipartWriter.calc_content_length` is not
present in the source tree (`src/aiocouchdb/multipart.py` defines only
`serialize`); spec §4.5 states it "sums, per part, boundary-prefix
overhead plus the part's own computed length, plus the closing
boundary's overhead" and "requires every part to expose a known length".
A part's own computed length is the byte length of its serialization:
header block, `\r\n` separators, payload, trailing `\r\n`; it is known
exactly when the payload length is (always, except for a stream whose
size `fstat` cannot report). -/
def partCalcLength? (p : PartW) : Option Nat :=
  match guessContentLength?' p.payload with
  | none => none
  | some n =>
    some ((if p.headers.isEmpty then 0 else headerBlockLen p.headers)
      + 4 + n + 2)
where
  /-- Payload byte length, when knowable. -/
  guessContentLength?' : PartPayload → Option Nat
    | .raw d => some d.length
    | .text d => some d.length
    | .json d => some d.length
    | .ioStream chunks known =>
      if known then some (chunks.map List.length).sum else none
  /-- Byte length of the serialized header block. -/
  headerBlockLen (h : Headers) : Nat :=
    (h.map fun q => q.1.length + 2 + q.2.length).sum + 2 * (h.length - 1)

/-- Modelled from the spec (see `partCalcLength?`): total content length
of the assembled body — per part the `--boundary\r\n` prefix overhead
plus the part's computed length, plus the `--boundary--\r\n` closing
overhead; `none` as soon as one part cannot expose a length. -/
def MWriter.calcContentLength (w : MWriter) : Option Nat :=
  match go (2 + w.boundary.length + 2) w.parts with
  | none => none
  | some n => some (n + (2 + w.boundary.length + 4))
where
  go (prefixLen : Nat) : List PartW → Option Nat
    | [] => some 0
    | p :: rest =>
      match partCalcLength? p, go prefixLen rest with
      | some a, some b => some (prefixLen + a + b)
      | _, _ => none

/-! ## Lemmas: byte-string helpers -/

theorem dropWhile_append_of_ne (P : Nat → Bool) (xs ys : Bytes)
    (hne : xs ≠ []) (hxs : ∀ b ∈ xs, P b = false) :
    (xs ++ ys).dropWhile P = xs ++ ys := by
  cases xs with
  | nil => exact absurd rfl hne
  | cons a l =>
    simp only [List.cons_append, List.dropWhile_cons]
    rw [hxs a (by simp)]
    simp

theorem dropWhile_eq_self_of_ne (P : Nat → Bool) (xs : Bytes)
    (hxs : ∀ b ∈ xs, P b = false) : xs.dropWhile P = xs := by
  cases xs with
  | nil => rfl
  | cons a l =>
    simpa using dropWhile_append_of_ne P (a :: l) [] (by simp) hxs

theorem dropTrailing_append_all (P : Nat → Bool) (xs ys : Bytes)
    (hys : ∀ b ∈ ys, P b = true) :
    dropTrailing P (xs ++ ys) = dropTrailing P xs := by
  unfold dropTrailing
  rw [List.reverse_append, List.dropWhile_append]
  have h1 : ys.reverse.dropWhile P = [] := by
    rw [List.dropWhile_eq_nil_iff]
    intro x hx
    exact hys x (List.mem_reverse.mp hx)
  simp [h1]

theorem dropTrailing_eq_self (P : Nat → Bool) (xs : Bytes)
    (hxs : ∀ b ∈ xs, P b = false) : dropTrailing P xs = xs := by
  unfold dropTrailing
  rw [dropWhile_eq_self_of_ne P xs.reverse
    (fun b hb => hxs b (List.mem_reverse.mp hb))]
  simp

theorem dropTrailing_append_of_getLast (P : Nat → Bool) (xs ys : Bytes)
    (hne : ys ≠ []) (hlast : P (ys.getLast hne) = false) :
    dropTrailing P (xs ++ ys) = xs ++ ys := by
  unfold dropTrailing
  rw [List.reverse_append]
  obtain ⟨a, l, hrev⟩ : ∃ a l, ys.reverse = a :: l := by
    cases h : ys.reverse with
    | nil => exact absurd (by simpa using congrArg List.reverse h) hne
    | cons a l => exact ⟨a, l, rfl⟩
  have hPa : P a = false := by
    have hga : ys.getLast hne = a := by
      rw [List.getLast_eq_head_reverse]
      simp [hrev]
    rwa [hga] at hlast
  rw [hrev, List.cons_append, List.dropWhile_cons, hPa]
  simp only [Bool.false_eq_true, if_false, ← List.cons_append, ← hrev,
    ← List.reverse_append, List.reverse_reverse]

theorem splitLine_append (xs rest : Bytes) (hxs : ∀ b ∈ xs, b ≠ LFb) :
    splitLine (xs ++ LFb :: rest) = (xs ++ [LFb], rest) := by
  induction xs with
  | nil => simp [splitLine, LFb]
  | cons a l ih =>
    have ha : a ≠ LFb := hxs a (by simp)
    simp only [List.cons_append, splitLine, List.append_eq]
    rw [if_neg ha, ih (fun b hb => hxs b (by simp [hb]))]

theorem readline_append (xs rest : Bytes) (hxs : ∀ b ∈ xs, b ≠ LFb) :
    ByteStream.readline ⟨xs ++ LFb :: rest⟩ = (xs ++ [LFb], ⟨rest⟩) := by
  simp [ByteStream.readline, splitLine_append xs rest hxs]

theorem parseNatAux_append (xs ys : Bytes) (acc : Nat) :
    parseNatAux (xs ++ ys) acc =
      match parseNatAux xs acc with
      | none => none
      | some a => parseNatAux ys a := by
  induction xs generalizing acc with
  | nil => simp [parseNatAux]
  | cons b l ih =>
    simp only [List.cons_append, parseNatAux]
    cases digitVal? b with
    | none => rfl
    | some d => exact ih (acc * 10 + d)

theorem natDigitsAux_spec (n : Nat) : ∀ fuel, n < fuel → ∀ acc,
    parseNatAux (natDigitsAux fuel n).reverse acc =
      some (acc * 10 ^ (natDigitsAux fuel n).length + n) := by
  induction n using Nat.strong_induction_on with
  | _ n ih =>
    intro fuel hfuel acc
    match fuel with
    | 0 => omega
    | f + 1 =>
      by_cases hn : n = 0
      · subst hn; simp [natDigitsAux, parseNatAux]
      · rw [natDigitsAux, if_neg hn]
        have hdiv : n / 10 < n := Nat.div_lt_self (Nat.pos_of_ne_zero hn) (by omega)
        have hdivf : n / 10 < f := lt_of_lt_of_le hdiv (Nat.le_of_lt_succ hfuel)
        simp only [List.reverse_cons]
        rw [parseNatAux_append, ih (n / 10) hdiv f hdivf acc]
        have hmod : n % 10 < 10 := Nat.mod_lt n (by omega)
        have hdig : digitVal? (n % 10 + 48) = some (n % 10) := by
          have h1 : 48 ≤ n % 10 + 48 ∧ n % 10 + 48 ≤ 57 := by omega
          unfold digitVal?
          rw [if_pos h1]
          congr 1
        simp only [parseNatAux, hdig, List.length_cons]
        congr 1
        have hdm : 10 * (n / 10) + n % 10 = n := Nat.div_add_mod n 10
        calc (acc * 10 ^ (natDigitsAux f (n / 10)).length + n / 10) * 10
              + n % 10
            = acc * (10 ^ (natDigitsAux f (n / 10)).length * 10)
              + (10 * (n / 10) + n % 10) := by ring
          _ = acc * 10 ^ ((natDigitsAux f (n / 10)).length + 1) + n := by
              rw [hdm, pow_succ]

theorem parseNat_natDecimal (n : Nat) : parseNat? (natDecimal n) = some n := by
  by_cases hn : n = 0
  · subst hn; simp [natDecimal, parseNat?, parseNatAux, digitVal?]
  · unfold natDecimal parseNat?
    rw [if_neg hn]
    have hne : (natDigitsAux (n + 1) n).reverse ≠ [] := by
      rw [natDigitsAux, if_neg hn]
      simp
    rw [if_neg hne, natDigitsAux_spec n (n + 1) (by omega) 0]
    simp

theorem splitOnB_no_sep (c : Nat) (l : Bytes) (h : ∀ b ∈ l, b ≠ c) :
    splitOnB c l = [l] := by
  induction l with
  | nil => rfl
  | cons a t ih =>
    rw [splitOnB, if_neg (h a (by simp)), ih (fun b hb => h b (by simp [hb]))]

theorem splitOnB_append_sep (c : Nat) (xs ys : Bytes)
    (h : ∀ b ∈ xs, b ≠ c) :
    splitOnB c (xs ++ c :: ys) = xs :: splitOnB c ys := by
  induction xs with
  | nil => simp [splitOnB]
  | cons a t ih =>
    rw [List.cons_append, splitOnB, if_neg (h a (by simp)),
      ih (fun b hb => h b (by simp [hb]))]

theorem splitFirst_no_sep (c : Nat) (l : Bytes) (h : ∀ b ∈ l, b ≠ c) :
    splitFirst c l = none := by
  induction l with
  | nil => rfl
  | cons a t ih =>
    rw [splitFirst, if_neg (h a (by simp)), ih (fun b hb => h b (by simp [hb]))]

theorem splitFirst_append_sep (c : Nat) (xs ys : Bytes)
    (h : ∀ b ∈ xs, b ≠ c) :
    splitFirst c (xs ++ c :: ys) = some (xs, ys) := by
  induction xs with
  | nil => simp [splitFirst]
  | cons a t ih =>
    rw [List.cons_append, splitFirst, if_neg (h a (by simp)),
      ih (fun b hb => h b (by simp [hb]))]

theorem natDecimal_digits (n : Nat) :
    ∀ b ∈ natDecimal n, 48 ≤ b ∧ b ≤ 57 := by
  unfold natDecimal
  by_cases hn : n = 0
  · simp [hn]
  · rw [if_neg hn]
    intro b hb
    rw [List.mem_reverse] at hb
    clear hn
    generalize hf : n + 1 = fuel at hb
    clear hf
    induction fuel generalizing n with
    | zero => simp [natDigitsAux] at hb
    | succ f ih =>
      rw [natDigitsAux] at hb
      split at hb
      · simp at hb
      · rcases List.mem_cons.mp hb with h | h
        · have : n % 10 < 10 := Nat.mod_lt n (by omega)
          omega
        · exact ih (n / 10) h

/-! ## Wire format and well-formedness predicates -/

/-- `b'--' + boundary`: the line-level boundary marker. -/
def dashBoundary (B : Bytes) : Bytes := [45, 45] ++ B

/-- The byte string a single part contributes to the body. -/
def partBytes (p : PartW) : Bytes := p.serialize.flatten

/-- What remains on the wire when `rem` parts are still unread: for each
part its `--boundary\r\n` line and serialized bytes, then the
`--boundary--\r\n` closing line. -/
def serializeRest (B : Bytes) : List PartSpec → Bytes
  | [] => dashBoundary B ++ [45, 45, CRb, LFb]
  | p :: rest =>
    dashBoundary B ++ [CRb, LFb] ++ partBytes p.toPartW ++ serializeRest B rest

/-- The exact line the previous part pushed back / the reader is about to
consume: a continuation boundary line when parts remain, the final
boundary line otherwise. -/
def nextLineOf (B : Bytes) : List PartSpec → Bytes
  | [] => dashBoundary B ++ [45, 45, CRb, LFb]
  | _ :: _ => dashBoundary B ++ [CRb, LFb]

/-- The wire content after `nextLineOf`. -/
def restAfterLine (B : Bytes) : List PartSpec → Bytes
  | [] => []
  | p :: rest => partBytes p.toPartW ++ serializeRest B rest

/-- A well-formed boundary: nonempty, at most 70 chars, printable ASCII
free of the delimiter characters `"` `;` `=` (hence also free of
whitespace, CR and LF). -/
def BoundaryOk (B : Bytes) : Prop :=
  B ≠ [] ∧ B.length ≤ 70 ∧
    ∀ b ∈ B, 33 ≤ b ∧ b ≤ 126 ∧ b ≠ 34 ∧ b ≠ 59 ∧ b ≠ 61

instance (B : Bytes) : Decidable (BoundaryOk B) := by
  unfold BoundaryOk; infer_instance

/-- Side conditions under which a boundary-delimited payload survives the
line-by-line reader: it is a single line (no LF) that cannot be mistaken
for a boundary line. -/
def LineSafe (B d : Bytes) : Prop :=
  (∀ b ∈ d, b ≠ LFb) ∧ (dashBoundary B).isPrefixOf (d ++ [CRb, LFb]) = false

instance (B d : Bytes) : Decidable (LineSafe B d) := by
  unfold LineSafe; infer_instance

/-- Per-part side condition of the round trip: raw parts are
length-delimited and unrestricted; text and JSON parts must be
line-safe. -/
def PartSpec.Ok (B : Bytes) : PartSpec → Prop
  | .raw _ => True
  | .text d => LineSafe B d
  | .json d => LineSafe B d

instance (B : Bytes) (p : PartSpec) : Decidable (PartSpec.Ok B p) := by
  cases p <;> (unfold PartSpec.Ok; infer_instance)

theorem stripQS_eq_self {B : Bytes} (h : ∀ b ∈ B, isQSByte b = false) :
    stripQS B = B := by
  unfold stripQS
  rw [dropWhile_eq_self_of_ne _ _ h, dropTrailing_eq_self _ _ h]

/-- The writer's `Content-Type` header value. -/
def writerCType (B : Bytes) : Bytes :=
  strBytes "multipart/mixed; boundary=" ++ B

theorem writerCType_split (B : Bytes) :
    writerCType B =
      strBytes "multipart/mixed" ++ 59 :: (strBytes " boundary" ++ 61 :: B) := by
  unfold writerCType
  rfl

theorem splitOnB_writerCType {B : Bytes} (hB : BoundaryOk B) :
    splitOnB 59 (writerCType B) =
      [strBytes "multipart/mixed", strBytes " boundary" ++ 61 :: B] := by
  rw [writerCType_split, splitOnB_append_sep 59 _ _ (by decide)]
  rw [splitOnB_no_sep]
  intro b hb
  have hsb : ∀ x ∈ strBytes " boundary", x ≠ 59 := by decide
  rcases List.mem_append.mp hb with h | h
  · exact hsb b h
  · rcases List.mem_cons.mp h with h | h
    · omega
    · exact (hB.2.2 b h).2.2.2.1

theorem mimeTypeOf_writerCType {B : Bytes} (hB : BoundaryOk B) :
    mimeTypeOf (writerCType B) = strBytes "multipart" := by
  have hne : writerCType B ≠ [] := by rw [writerCType_split]; simp
  unfold mimeTypeOf fullTypeOf
  rw [if_neg hne, splitOnB_writerCType hB]
  rfl

theorem mimeParams_writerCType {B : Bytes} (hB : BoundaryOk B) :
    mimeParams (writerCType B) = [(strBytes "boundary", B)] := by
  have hne : writerCType B ≠ [] := by rw [writerCType_split]; simp
  unfold mimeParams
  rw [if_neg hne, splitOnB_writerCType hB]
  simp only [List.tail_cons, List.map_cons, List.map_nil]
  rw [splitFirst_append_sep 61 _ _ (by decide)]
  have hqs : stripQS B = B := by
    refine stripQS_eq_self ?_
    intro b hb
    have := (hB.2.2 b hb)
    simp only [isQSByte, Bool.or_eq_false_iff, decide_eq_false_iff_not]
    omega
  show [(lowerBytes (stripWS (strBytes " boundary")), stripQS B)] =
    [(strBytes "boundary", B)]
  rw [hqs]
  rfl

theorem hget_mkWriter (B : Bytes) (parts : List PartW) :
    hget (mkWriter B parts).headers CONTENT_TYPE = some (writerCType B) := by
  simp [hget, mkWriter, writerCType, List.find?]

theorem boundary_mkWriter {B : Bytes} (hB : BoundaryOk B) (parts : List PartW) :
    (mkWriter B parts).boundary = B := by
  unfold MWriter.boundary
  rw [hget_mkWriter]
  show (pLookup (mimeParams (writerCType B)) (strBytes "boundary")).getD [] = B
  rw [mimeParams_writerCType hB]
  simp [pLookup]

theorem getBoundaryOf_writer {B : Bytes} (hB : BoundaryOk B)
    (parts : List PartW) :
    getBoundaryOf (mkWriter B parts).headers = .ok B := by
  unfold getBoundaryOf
  rw [hget_mkWriter]
  show (if mimeTypeOf (writerCType B) = strBytes "multipart" then _ else _) = _
  rw [if_pos (mimeTypeOf_writerCType hB), mimeParams_writerCType hB]
  show (match pLookup [(strBytes "boundary", B)] (strBytes "boundary") with
    | none => (Except.error RErr.valueError)
    | some b => if b.length > 70 then .error .valueError else .ok b) = .ok B
  have hpl : pLookup [(strBytes "boundary", B)] (strBytes "boundary") =
      some B := by simp [pLookup]
  rw [hpl]
  show (if B.length > 70 then Except.error RErr.valueError else .ok B) = .ok B
  rw [if_neg (Nat.not_lt.mpr hB.2.1)]

theorem mkMReader_writer {B : Bytes} (hB : BoundaryOk B)
    (parts : List PartW) :
    mkMReader (mkWriter B parts).headers =
      .ok ⟨dashBoundary B, false, [], none⟩ := by
  unfold mkMReader
  rw [getBoundaryOf_writer hB]
  rfl

theorem flatten_serialize_go (B : Bytes) (ps : List PartSpec) :
    (((ps.map PartSpec.toPartW).flatMap fun p =>
        ([45, 45] ++ B ++ [CRb, LFb]) :: p.serialize)
      ++ [[45, 45] ++ B ++ [45, 45] ++ [CRb, LFb], []]).flatten
      = serializeRest B ps := by
  induction ps with
  | nil => simp [serializeRest, dashBoundary]
  | cons p t ih =>
    simp only [List.map_cons, List.flatMap_cons, List.cons_append,
      List.flatten_cons, List.append_assoc, List.flatten_append] at ih ⊢
    rw [serializeRest, ← ih]
    simp [partBytes, dashBoundary, List.append_assoc]

theorem flatten_serialize {B : Bytes} (hB : BoundaryOk B) (ps : List PartSpec)
    (hne : ps ≠ []) :
    ((mkWriter B (ps.map PartSpec.toPartW)).serialize).flatten =
      serializeRest B ps := by
  unfold MWriter.serialize
  rw [boundary_mkWriter hB]
  have hpe : ((mkWriter B (ps.map PartSpec.toPartW)).parts).isEmpty = false := by
    cases ps with
    | nil => exact absurd rfl hne
    | cons p t => rfl
  rw [hpe]
  simp only [Bool.false_eq_true, if_false]
  exact flatten_serialize_go B ps

theorem boundaryOk_facts {B : Bytes} (hB : BoundaryOk B) :
    (∀ b ∈ B, b ≠ LFb) ∧ (∀ b ∈ B, isWSByte b = false) ∧
      (∀ b ∈ B, isCRLFByte b = false) ∧ (∀ b ∈ B, b ≠ 59) ∧
      (∀ b ∈ B, b ≠ 61) ∧ (∀ b ∈ B, isQSByte b = false) := by
  obtain ⟨-, -, h⟩ := hB
  refine ⟨?_, ?_, ?_, ?_, ?_, ?_⟩ <;> intro b hb <;>
    obtain ⟨h1, h2, h3, h4, h5⟩ := h b hb <;>
    simp only [isWSByte, isCRLFByte, isQSByte, LFb, Bool.or_eq_false_iff,
      decide_eq_false_iff_not, ne_eq] <;> omega

/-! ## Lemmas: boundary lines and `BodyPartReader.readline` -/

theorem dashBoundary_no_LF {B : Bytes} (hB : BoundaryOk B) :
    ∀ b ∈ dashBoundary B, b ≠ LFb := by
  intro b hb
  rcases List.mem_append.mp hb with h | h
  · rcases List.mem_cons.mp h with h | h
    · subst h; decide
    · simp at h; subst h; decide
  · exact (boundaryOk_facts hB).1 b h

theorem dashBoundary_no_CRLF {B : Bytes} (hB : BoundaryOk B) :
    ∀ b ∈ dashBoundary B, isCRLFByte b = false := by
  intro b hb
  rcases List.mem_append.mp hb with h | h
  · rcases List.mem_cons.mp h with h | h
    · subst h; rfl
    · simp at h; subst h; rfl
  · exact (boundaryOk_facts hB).2.2.1 b h

theorem dashBoundary_no_WS {B : Bytes} (hB : BoundaryOk B) :
    ∀ b ∈ dashBoundary B, isWSByte b = false := by
  intro b hb
  rcases List.mem_append.mp hb with h | h
  · rcases List.mem_cons.mp h with h | h
    · subst h; rfl
    · simp at h; subst h; rfl
  · exact (boundaryOk_facts hB).2.1 b h

/-- Reading the continuation boundary line off the wire. -/
theorem contLine_readline {B : Bytes} (hB : BoundaryOk B) (rest : Bytes) :
    ByteStream.readline ⟨dashBoundary B ++ [CRb, LFb] ++ rest⟩ =
      (dashBoundary B ++ [CRb, LFb], ⟨rest⟩) := by
  have h : dashBoundary B ++ [CRb, LFb] ++ rest =
      (dashBoundary B ++ [CRb]) ++ LFb :: rest := by simp
  rw [h, readline_append]
  · simp
  · intro b hb
    rcases List.mem_append.mp hb with h' | h'
    · exact dashBoundary_no_LF hB b h'
    · simp at h'; subst h'; decide

/-- Reading the final boundary line off the wire. -/
theorem lastLine_readline {B : Bytes} (hB : BoundaryOk B) (rest : Bytes) :
    ByteStream.readline ⟨dashBoundary B ++ [45, 45, CRb, LFb] ++ rest⟩ =
      (dashBoundary B ++ [45, 45, CRb, LFb], ⟨rest⟩) := by
  have h : dashBoundary B ++ [45, 45, CRb, LFb] ++ rest =
      (dashBoundary B ++ [45, 45, CRb]) ++ LFb :: rest := by simp
  rw [h, readline_append]
  · simp
  · intro b hb
    rcases List.mem_append.mp hb with h' | h'
    · exact dashBoundary_no_LF hB b h'
    · clear hb h; revert h'; revert b; decide

theorem rstripCRLF_contLine {B : Bytes} (hB : BoundaryOk B) :
    rstripCRLF (dashBoundary B ++ [CRb, LFb]) = dashBoundary B := by
  unfold rstripCRLF
  rw [dropTrailing_append_all _ _ _ (by decide),
    dropTrailing_eq_self _ _ (dashBoundary_no_CRLF hB)]

theorem rstripCRLF_lastLine {B : Bytes} (hB : BoundaryOk B) :
    rstripCRLF (dashBoundary B ++ [45, 45, CRb, LFb]) =
      dashBoundary B ++ [45, 45] := by
  unfold rstripCRLF
  have h : dashBoundary B ++ [45, 45, CRb, LFb] =
      (dashBoundary B ++ [45, 45]) ++ [CRb, LFb] := by simp
  rw [h, dropTrailing_append_all _ _ _ (by decide),
    dropTrailing_append_of_getLast _ _ _ (by simp) (by decide)]

theorem rstripWS_contLine {B : Bytes} (hB : BoundaryOk B) :
    rstripWS (dashBoundary B ++ [CRb, LFb]) = dashBoundary B := by
  unfold rstripWS
  rw [dropTrailing_append_all _ _ _ (by decide),
    dropTrailing_eq_self _ _ (dashBoundary_no_WS hB)]

theorem rstripWS_lastLine {B : Bytes} (hB : BoundaryOk B) :
    rstripWS (dashBoundary B ++ [45, 45, CRb, LFb]) =
      dashBoundary B ++ [45, 45] := by
  unfold rstripWS
  have h : dashBoundary B ++ [45, 45, CRb, LFb] =
      (dashBoundary B ++ [45, 45]) ++ [CRb, LFb] := by simp
  rw [h, dropTrailing_append_all _ _ _ (by decide),
    dropTrailing_append_of_getLast _ _ _ (by simp) (by decide)]

/-- The boundary marker never equals the final marker. -/
theorem contLine_ne_lastLine (B : Bytes) :
    (dashBoundary B : Bytes) ≠ dashBoundary B ++ [45, 45] := by
  intro h
  have := congrArg List.length h
  simp at this

/-- `readline` on a line that is exactly the continuation boundary:
flips `at_eof`, pushes the raw line back, returns empty. -/
theorem readlineStep_contLine {B : Bytes} (hB : BoundaryOk B)
    (r : BPReader) (hbnd : r.boundary = dashBoundary B)
    (hEof : r.atEof = false) (rest : Bytes) :
    r.readlineStep ⟨dashBoundary B ++ [CRb, LFb] ++ rest⟩ =
      ([], { r with atEof := true, unread := r.unread ++ [dashBoundary B ++ [CRb, LFb]] }, ⟨rest⟩) := by
  unfold BPReader.readlineStep
  rw [hEof]
  simp only [Bool.false_eq_true, if_false, contLine_readline hB]
  rw [hbnd]
  have hpre : (dashBoundary B).isPrefixOf (dashBoundary B ++ [CRb, LFb]) =
      true := by
    rw [List.isPrefixOf_iff_prefix]
    exact List.prefix_append _ _
  rw [hpre]
  simp only [if_true, rstripCRLF_contLine hB]
  simp

/-- `readline` on the final boundary line. -/
theorem readlineStep_lastLine {B : Bytes} (hB : BoundaryOk B)
    (r : BPReader) (hbnd : r.boundary = dashBoundary B)
    (hEof : r.atEof = false) (rest : Bytes) :
    r.readlineStep ⟨dashBoundary B ++ [45, 45, CRb, LFb] ++ rest⟩ =
      ([], { r with atEof := true, unread := r.unread ++ [dashBoundary B ++ [45, 45, CRb, LFb]] }, ⟨rest⟩) := by
  unfold BPReader.readlineStep
  rw [hEof]
  simp only [Bool.false_eq_true, if_false, lastLine_readline hB]
  rw [hbnd]
  have hpre : (dashBoundary B).isPrefixOf
      (dashBoundary B ++ [45, 45, CRb, LFb]) = true := by
    rw [List.isPrefixOf_iff_prefix]
    exact List.prefix_append _ _
  rw [hpre]
  simp only [if_true, rstripCRLF_lastLine hB]
  simp

/-- `readline` on a payload line that is not boundary-like: the line is
delivered unchanged. -/
theorem readlineStep_payload {B : Bytes} (hB : BoundaryOk B)
    (r : BPReader) (hbnd : r.boundary = dashBoundary B)
    (hEof : r.atEof = false) (d rest : Bytes)
    (hLF : ∀ b ∈ d, b ≠ LFb)
    (hpre : (dashBoundary B).isPrefixOf (d ++ [CRb, LFb]) = false) :
    r.readlineStep ⟨d ++ [CRb, LFb] ++ rest⟩ = (d ++ [CRb, LFb], r, ⟨rest⟩) := by
  unfold BPReader.readlineStep
  rw [hEof]
  have hrl : ByteStream.readline ⟨d ++ [CRb, LFb] ++ rest⟩ =
      (d ++ [CRb, LFb], ⟨rest⟩) := by
    have h : d ++ [CRb, LFb] ++ rest = (d ++ [CRb]) ++ LFb :: rest := by simp
    rw [h, readline_append]
    · simp
    · intro b hb
      rcases List.mem_append.mp hb with h' | h'
      · exact hLF b h'
      · simp at h'; subst h'; decide
  simp only [Bool.false_eq_true, if_false, hrl]
  rw [hbnd, hpre]
  simp

/-! ## Lemmas: reading one body part -/

/-- The boundary-delimited read loop over a one-line payload followed by
a boundary line: the payload line (with its CRLF) is accumulated, the
boundary line flips `at_eof` and is pushed back. -/
theorem readLines_payload {B : Bytes} (hB : BoundaryOk B) (r : BPReader)
    (hbnd : r.boundary = dashBoundary B) (hEof : r.atEof = false)
    (d bl rest : Bytes) (hLF : ∀ b ∈ d, b ≠ LFb)
    (hpre : (dashBoundary B).isPrefixOf (d ++ [CRb, LFb]) = false)
    (hbl : bl = dashBoundary B ++ [CRb, LFb] ∨
      bl = dashBoundary B ++ [45, 45, CRb, LFb])
    (acc : Bytes) (fuel : Nat) (hfuel : 3 ≤ fuel) :
    BPReader.readLines fuel r ⟨d ++ [CRb, LFb] ++ bl ++ rest⟩ acc =
      .ok (acc ++ (d ++ [CRb, LFb]),
        { r with atEof := true, unread := r.unread ++ [bl] }, ⟨rest⟩) := by
  obtain ⟨f, rfl⟩ : ∃ f, fuel = f + 3 := ⟨fuel - 3, by omega⟩
  show BPReader.readLines (f + 2 + 1) r _ acc = _
  rw [BPReader.readLines, hEof]
  simp only [Bool.false_eq_true, if_false]
  have hstep1 : r.readlineStep ⟨d ++ [CRb, LFb] ++ bl ++ rest⟩ =
      (d ++ [CRb, LFb], r, ⟨bl ++ rest⟩) := by
    have hsh : d ++ [CRb, LFb] ++ bl ++ rest =
        d ++ [CRb, LFb] ++ (bl ++ rest) := by simp
    rw [hsh]
    exact readlineStep_payload hB r hbnd hEof d (bl ++ rest) hLF hpre
  rw [hstep1]
  show BPReader.readLines (f + 1 + 1) r _ _ = _
  rw [BPReader.readLines, hEof]
  simp only [Bool.false_eq_true, if_false]
  have hstep2 : r.readlineStep ⟨bl ++ rest⟩ =
      ([], { r with atEof := true, unread := r.unread ++ [bl] }, ⟨rest⟩) := by
    rcases hbl with hbl | hbl <;> subst hbl
    · exact readlineStep_contLine hB r hbnd hEof rest
    · exact readlineStep_lastLine hB r hbnd hEof rest
  rw [hstep2]
  show BPReader.readLines (f + 1) _ _ _ = _
  rw [BPReader.readLines]
  simp

/-- The length-delimited read loop: consumes exactly the declared number
of payload bytes from the stream, advancing `read_bytes` to the declared
length and flipping `at_eof`. -/
theorem readChunks_spec (L : Nat) : ∀ rem fuel (r : BPReader)
    (d rest acc : Bytes),
    r.atEof = false → r.lengthOpt = some L → r.readBytes + rem = L →
    d.length = rem → rem + 2 ≤ fuel →
    BPReader.readChunks fuel r ⟨d ++ rest⟩ acc =
      .ok (acc ++ d, { r with readBytes := L, atEof := true }, ⟨rest⟩) := by
  intro rem
  induction rem using Nat.strong_induction_on with
  | _ rem ih =>
    intro fuel r d rest acc hEof hL hrb hd hfuel
    obtain ⟨f, rfl⟩ : ∃ f, fuel = f + 1 := ⟨fuel - 1, by omega⟩
    rw [BPReader.readChunks, hEof]
    simp only [Bool.false_eq_true, if_false]
    rw [BPReader.readChunk, hEof]
    simp only [Bool.false_eq_true, if_false, hL]
    have hLrb : L - r.readBytes = rem := by omega
    rw [hLrb]
    by_cases hbig : rem ≤ chunkSizeDefault
    · have hcs : min chunkSizeDefault rem = rem := by omega
      rw [hcs]
      show BPReader.readChunks f _ _ _ = _
      have htake : (d ++ rest).take rem = d := by
        rw [List.take_append_of_le_length (by omega), ← hd, List.take_length]
      have hdrop : (d ++ rest).drop rem = rest := by
        rw [List.drop_append_of_le_length (by omega), ← hd, List.drop_length]
        simp
      obtain ⟨f2, rfl⟩ : ∃ f2, f = f2 + 1 := ⟨f - 1, by omega⟩
      rw [BPReader.readChunks]
      have heq : decide (r.readBytes + rem = L) = true := by
        simp only [decide_eq_true_eq]; omega
      simp only [ByteStream.read, htake, hdrop, heq, if_true]
      have hrbL : r.readBytes + rem = L := hrb
      rw [hrbL]
    · have hcs : min chunkSizeDefault rem = chunkSizeDefault := by omega
      rw [hcs]
      have htake : (d ++ rest).take chunkSizeDefault =
          d.take chunkSizeDefault := by
        rw [List.take_append_of_le_length (by omega)]
      have hdrop : (d ++ rest).drop chunkSizeDefault =
          d.drop chunkSizeDefault ++ rest := by
        rw [List.drop_append_of_le_length (by omega)]
      have heq : decide (r.readBytes + chunkSizeDefault = L) = false := by
        simp only [decide_eq_false_iff_not]; omega
      simp only [ByteStream.read, htake, hdrop, heq]
      have hrec := ih (rem - chunkSizeDefault) (by
          unfold chunkSizeDefault at hbig ⊢; omega) f
        { r with readBytes := r.readBytes + chunkSizeDefault, atEof := false }
        (d.drop chunkSizeDefault) rest (acc ++ d.take chunkSizeDefault)
        rfl hL (by simp; omega) (by simp [hd])
        (by unfold chunkSizeDefault at hbig ⊢; omega)
      rw [hL] at hrec
      rw [hrec]
      simp [List.take_append_drop]

/-- `read()` of a length-delimited (raw) part: the payload is returned
exactly and the trailing CRLF integrity check consumes the terminator. -/
theorem read_raw (L : Nat) (r : BPReader) (hEof : r.atEof = false)
    (hL : r.lengthOpt = some L) (hrb : r.readBytes = 0)
    (d rest : Bytes) (hd : d.length = L) (fuel : Nat)
    (hfuel : L + 2 ≤ fuel) :
    BPReader.read fuel r ⟨d ++ [CRb, LFb] ++ rest⟩ =
      .ok (d, { r with readBytes := L, atEof := true }, ⟨rest⟩) := by
  rw [BPReader.read, hEof]
  simp only [Bool.false_eq_true, if_false, hL]
  have hchunks := readChunks_spec L L fuel r d ([CRb, LFb] ++ rest) []
    hEof hL (by omega) hd hfuel
  simp only [List.append_assoc] at hchunks ⊢
  rw [hchunks]
  have hterm : ByteStream.readline ⟨[CRb, LFb] ++ rest⟩ = ([CRb, LFb], ⟨rest⟩) := by
    have : ([CRb, LFb] : Bytes) ++ rest = [CRb] ++ LFb :: rest := by simp
    rw [this, readline_append _ _ (by decide)]
    rfl
  simp only [hterm]
  simp [hL]

/-- `read()` of a boundary-delimited (text/JSON) part over a line-safe
payload: returns the payload plus the writer's trailing CRLF, flips
`at_eof`, pushes the boundary line back. -/
theorem read_noLength {B : Bytes} (hB : BoundaryOk B) (r : BPReader)
    (hbnd : r.boundary = dashBoundary B) (hEof : r.atEof = false)
    (hL : r.lengthOpt = none) (d bl rest : Bytes)
    (hLF : ∀ b ∈ d, b ≠ LFb)
    (hpre : (dashBoundary B).isPrefixOf (d ++ [CRb, LFb]) = false)
    (hbl : bl = dashBoundary B ++ [CRb, LFb] ∨
      bl = dashBoundary B ++ [45, 45, CRb, LFb])
    (fuel : Nat) (hfuel : 3 ≤ fuel) :
    BPReader.read fuel r ⟨d ++ [CRb, LFb] ++ bl ++ rest⟩ =
      .ok (d ++ [CRb, LFb],
        { r with atEof := true, unread := r.unread ++ [bl] }, ⟨rest⟩) := by
  rw [BPReader.read, hEof]
  simp only [Bool.false_eq_true, if_false, hL]
  have h := readLines_payload hB r hbnd hEof d bl rest hLF hpre hbl [] fuel hfuel
  rw [h]
  simp [hL]

/-! ## Lemmas: the header block -/

/-- A header pair that survives the serialize/strip/parse round trip
unchanged: nonempty whitespace-free colon-free LF-free name, nonempty
value with no LF and no leading or trailing whitespace. -/
def HdrOk (p : Bytes × Bytes) : Prop :=
  p.1 ≠ [] ∧ (∀ b ∈ p.1, isWSByte b = false ∧ b ≠ 58) ∧
  p.2 ≠ [] ∧ (∀ b ∈ p.2, b ≠ LFb) ∧
  p.2.dropWhile isWSByte = p.2 ∧ dropTrailing isWSByte p.2 = p.2

instance (p : Bytes × Bytes) : Decidable (HdrOk p) := by
  unfold HdrOk; infer_instance

/-- One serialized header line. -/
def hdrLine (p : Bytes × Bytes) : Bytes :=
  p.1 ++ [58, 32] ++ p.2 ++ [CRb, LFb]

/-- The header lines of a part as they appear on the wire. -/
def hdrLines (hs : Headers) : Bytes := (hs.map hdrLine).flatten

/-- The writer's `\r\n`-joined header block followed by the blank-line
separator equals the line-by-line wire form. -/
theorem headerBlock_wire (hs : Headers) (hne : hs ≠ []) :
    headerBlock hs ++ [CRb, LFb, CRb, LFb] = hdrLines hs ++ [CRb, LFb] := by
  induction hs with
  | nil => exact absurd rfl hne
  | cons p t ih =>
    cases t with
    | nil => simp [headerBlock, hdrLines, hdrLine]
    | cons q u =>
      have hih := ih (by simp)
      show p.1 ++ [58, 32] ++ p.2 ++ [CRb, LFb] ++ headerBlock (q :: u)
          ++ [CRb, LFb, CRb, LFb] = _
      rw [hdrLines, List.map_cons, List.flatten_cons]
      rw [hdrLines] at hih
      simp only [List.append_assoc] at hih ⊢
      rw [hih]
      simp [hdrLine]

theorem getLast_not_of_dropTrailing (P : Nat → Bool) (v : Bytes)
    (hne : v ≠ []) (hid : dropTrailing P v = v) :
    P (v.getLast hne) = false := by
  obtain ⟨a, l, hrev⟩ : ∃ a l, v.reverse = a :: l := by
    cases h : v.reverse with
    | nil => exact absurd (by simpa using congrArg List.reverse h) hne
    | cons a l => exact ⟨a, l, rfl⟩
  have hga : v.getLast hne = a := by
    rw [List.getLast_eq_head_reverse]; simp [hrev]
  rw [hga]
  by_contra hPa
  rw [Bool.not_eq_false] at hPa
  have hdt : dropTrailing P v = (l.dropWhile P).reverse := by
    unfold dropTrailing
    rw [hrev, List.dropWhile_cons, hPa]
    simp
  rw [hdt] at hid
  have h1 := congrArg List.length hid
  simp only [List.length_reverse] at h1
  have h2 : l.length + 1 = v.length := by
    have := congrArg List.length hrev
    simpa using this.symm
  have h3 : (l.dropWhile P).length ≤ l.length :=
    ((List.dropWhile_suffix P).sublist).length_le
  omega

/-- `_read_headers` parses the wire header block back to exactly the
pairs that were serialized. -/
theorem readHeaders_spec : ∀ (hs : Headers) (acc : Headers) (fuel : Nat)
    (rest : Bytes), (∀ p ∈ hs, HdrOk p) → hs.length + 1 ≤ fuel →
    readHeadersLoop fuel ⟨hdrLines hs ++ [CRb, LFb] ++ rest⟩ acc =
      .ok (acc ++ hs, ⟨rest⟩) := by
  intro hs
  induction hs with
  | nil =>
    intro acc fuel rest hok hfuel
    obtain ⟨f, rfl⟩ : ∃ f, fuel = f + 1 := ⟨fuel - 1, by omega⟩
    rw [readHeadersLoop]
    have hrl : ByteStream.readline ⟨hdrLines [] ++ [CRb, LFb] ++ rest⟩ =
        ([CRb, LFb], ⟨rest⟩) := by
      show ByteStream.readline ⟨[] ++ [CRb, LFb] ++ rest⟩ = _
      have h : ([] : Bytes) ++ [CRb, LFb] ++ rest = [CRb] ++ LFb :: rest := by
        simp
      rw [h, readline_append _ _ (by decide)]
      rfl
    rw [hrl]
    have hstrip : stripWS [CRb, LFb] = [] := by decide
    simp [hstrip]
  | cons p t ih =>
    intro acc fuel rest hok hfuel
    obtain ⟨f, rfl⟩ : ∃ f, fuel = f + 1 := ⟨fuel - 1, by omega⟩
    obtain ⟨hn, hnb, hv, hvLF, hvl, hvr⟩ := hok p (by simp)
    rw [readHeadersLoop]
    have hline : hdrLines (p :: t) ++ [CRb, LFb] ++ rest =
        (p.1 ++ [58, 32] ++ p.2 ++ [CRb]) ++ LFb ::
          (hdrLines t ++ [CRb, LFb] ++ rest) := by
      rw [hdrLines, List.map_cons, List.flatten_cons, hdrLine]
      simp [hdrLines]
    have hrl : ByteStream.readline
        ⟨hdrLines (p :: t) ++ [CRb, LFb] ++ rest⟩ =
        (p.1 ++ [58, 32] ++ p.2 ++ [CRb, LFb],
         ⟨hdrLines t ++ [CRb, LFb] ++ rest⟩) := by
      rw [hline, readline_append]
      · simp
      · intro b hb
        simp only [List.append_assoc, List.mem_append, List.mem_cons,
          List.not_mem_nil, or_false] at hb
        rcases hb with hb | hb | hb
        · intro hc; subst hc; exact absurd (hnb LFb hb).1 (by decide)
        · rcases hb with hb | hb <;> (subst hb; decide)
        · rcases hb with hb | hb
          · exact hvLF b hb
          · subst hb; decide
    rw [hrl]
    have hstrip : stripWS (p.1 ++ [58, 32] ++ p.2 ++ [CRb, LFb]) =
        p.1 ++ [58, 32] ++ p.2 := by
      unfold stripWS
      have hdw : (p.1 ++ [58, 32] ++ p.2 ++ [CRb, LFb]).dropWhile isWSByte =
          p.1 ++ [58, 32] ++ p.2 ++ [CRb, LFb] := by
        simp only [List.append_assoc]
        exact dropWhile_append_of_ne _ _ _ hn
          (fun b hb => (hnb b hb).1)
      rw [hdw]
      have hsh : p.1 ++ [58, 32] ++ p.2 ++ [CRb, LFb] =
          (p.1 ++ [58, 32] ++ p.2) ++ [CRb, LFb] := by simp
      rw [hsh, dropTrailing_append_all _ _ _ (by decide)]
      have hsh2 : p.1 ++ [58, 32] ++ p.2 = (p.1 ++ [58, 32]) ++ p.2 := by
        simp
      rw [hsh2, dropTrailing_append_of_getLast _ _ _ hv
        (getLast_not_of_dropTrailing _ _ hv hvr)]
    simp only [hstrip]
    have hchunk_ne : (p.1 ++ [58, 32] ++ p.2 : Bytes) ≠ [] := by
      cases hp : p.1 with
      | nil => exact absurd hp hn
      | cons a l => simp [hp]
    rw [if_neg hchunk_ne]
    have hsf : splitFirst 58 (p.1 ++ [58, 32] ++ p.2) =
        some (p.1, 32 :: p.2) := by
      have hsh : p.1 ++ [58, 32] ++ p.2 = p.1 ++ 58 :: (32 :: p.2) := by simp
      rw [hsh, splitFirst_append_sep _ _ _ (fun b hb => (hnb b hb).2)]
    simp only [hsf]
    have hsn : stripWS p.1 = p.1 := by
      unfold stripWS
      rw [dropWhile_eq_self_of_ne _ _ (fun b hb => (hnb b hb).1),
        dropTrailing_eq_self _ _ (fun b hb => (hnb b hb).1)]
    have hsv : stripWS (32 :: p.2) = p.2 := by
      unfold stripWS
      rw [List.dropWhile_cons]
      have h32 : isWSByte 32 = true := by decide
      rw [h32]
      simp only [if_true, hvl, hvr]
    rw [hsn, hsv]
    have hrec := ih (acc ++ [(p.1, p.2)]) f rest
      (fun q hq => hok q (by simp [hq])) (by simp at hfuel; omega)
    rw [hrec]
    simp

/-! ## Lemmas: the three part kinds on the wire -/

/-- The raw payload bytes a part spec carries. -/
def PartSpec.payloadData : PartSpec → Bytes
  | .raw d => d
  | .text d => d
  | .json d => d

/-- The `_length` field the reader derives for the part. -/
def PartSpec.lengthOf : PartSpec → Option Nat
  | .raw d => some d.length
  | .text _ => none
  | .json _ => none

/-- The `BodyPartReader` freshly constructed for a part. -/
def freshBP (B : Bytes) (p : PartSpec) : BPReader :=
  ⟨dashBoundary B, (PartSpec.toPartW p).headers, false, p.lengthOf, 0, []⟩

theorem appendRaw_headers (d : Bytes) : (appendRaw d).headers =
    [(CONTENT_LENGTH, natDecimal d.length),
     (CONTENT_TYPE, strBytes "application/octet-stream")] := rfl

theorem appendText_headers (d : Bytes) : (appendText d).headers =
    [(CONTENT_TYPE, strBytes "text/plain; charset=utf-8")] := rfl

theorem appendJson_headers (d : Bytes) : (appendJson d).headers =
    [(CONTENT_TYPE, strBytes "application/json")] := rfl

theorem natDecimal_ne_nil (n : Nat) : natDecimal n ≠ [] := by
  unfold natDecimal
  by_cases h : n = 0
  · simp [h]
  · rw [if_neg h, natDigitsAux, if_neg h]
    simp

theorem hdrOk_part (p : PartSpec) : ∀ q ∈ (p.toPartW).headers, HdrOk q := by
  cases p with
  | raw d =>
    rw [PartSpec.toPartW, appendRaw_headers]
    intro q hq
    rcases List.mem_cons.mp hq with h | h
    · subst h
      refine ⟨by show CONTENT_LENGTH ≠ []; decide,
        by show ∀ b ∈ CONTENT_LENGTH, isWSByte b = false ∧ b ≠ 58; decide,
        natDecimal_ne_nil _, ?_, ?_, ?_⟩
      · intro b hb
        have := natDecimal_digits _ b hb
        simp [LFb]; omega
      · exact dropWhile_eq_self_of_ne _ _ (fun b hb => by
          have := natDecimal_digits _ b hb
          simp [isWSByte]; omega)
      · exact dropTrailing_eq_self _ _ (fun b hb => by
          have := natDecimal_digits _ b hb
          simp [isWSByte]; omega)
    · simp at h
      subst h
      refine ⟨by decide, by decide, by decide, by decide, by decide, by decide⟩
  | text d =>
    rw [PartSpec.toPartW, appendText_headers]
    intro q hq
    simp at hq
    subst hq
    exact ⟨by decide, by decide, by decide, by decide, by decide, by decide⟩
  | json d =>
    rw [PartSpec.toPartW, appendJson_headers]
    intro q hq
    simp at hq
    subst hq
    exact ⟨by decide, by decide, by decide, by decide, by decide, by decide⟩

/-- `_get_part_reader` on each of the three kinds: always a
`BodyPartReader` scoped to the outer boundary, with `_length` parsed
from `Content-Length` exactly for raw parts. -/
theorem getPartReader_part (B : Bytes) (p : PartSpec) :
    getPartReader (dashBoundary B) (p.toPartW).headers =
      .ok (.body (freshBP B p)) := by
  cases p with
  | raw d =>
    unfold getPartReader
    have hct : hget (PartSpec.toPartW (.raw d)).headers CONTENT_TYPE =
        some (strBytes "application/octet-stream") := rfl
    rw [hct]
    have hmt : mimeTypeOf (strBytes "application/octet-stream") =
        strBytes "application" := by decide
    simp only [Option.getD_some, hmt]
    rw [if_neg (by decide)]
    have hmk : mkBPReader (dashBoundary B)
        (PartSpec.toPartW (.raw d)).headers =
        .ok (freshBP B (.raw d)) := by
      unfold mkBPReader
      have hcl : hget (PartSpec.toPartW (.raw d)).headers CONTENT_LENGTH =
          some (natDecimal d.length) := rfl
      simp only [hcl, parseNat_natDecimal]
      rfl
    rw [hmk]

  | text d =>
    unfold getPartReader
    have hct : hget (PartSpec.toPartW (.text d)).headers CONTENT_TYPE =
        some (strBytes "text/plain; charset=utf-8") := rfl
    rw [hct]
    have hmt : mimeTypeOf (strBytes "text/plain; charset=utf-8") =
        strBytes "text" := by decide
    simp only [Option.getD_some, hmt]
    rw [if_neg (by decide)]
    rfl
  | json d =>
    unfold getPartReader
    have hct : hget (PartSpec.toPartW (.json d)).headers CONTENT_TYPE =
        some (strBytes "application/json") := rfl
    rw [hct]
    have hmt : mimeTypeOf (strBytes "application/json") =
        strBytes "application" := by decide
    simp only [Option.getD_some, hmt]
    rw [if_neg (by decide)]
    rfl

/-- Decomposition of a part's wire bytes into header lines, the blank
line, the payload, and the trailing CRLF. -/
theorem partBytes_decomp (p : PartSpec) :
    partBytes p.toPartW =
      hdrLines (p.toPartW).headers ++ [CRb, LFb]
        ++ (p.payloadData ++ [CRb, LFb]) := by
  have hne : (p.toPartW).headers ≠ [] := by
    cases p <;> simp [PartSpec.toPartW, appendRaw_headers, appendText_headers,
      appendJson_headers]
  have hchunks : payloadChunks (p.toPartW).payload = [p.payloadData] := by
    cases p <;> rfl
  unfold partBytes PartW.serialize
  rw [if_neg (by simpa using hne)]
  simp only [List.flatten_append, List.flatten_cons, List.flatten_nil,
    hchunks]
  have hw := headerBlock_wire (p.toPartW).headers hne
  simp only [List.append_nil]
  rw [hw]
  simp [List.append_assoc]

/-- `serializeRest` starts with the boundary line the previous part
pushed back. -/
theorem serializeRest_decomp (B : Bytes) (rem : List PartSpec) :
    serializeRest B rem = nextLineOf B rem ++ restAfterLine B rem := by
  cases rem <;> simp [serializeRest, nextLineOf, restAfterLine]

/-! ## The reader invariant and the round-trip induction -/

/-- Reader/stream invariant between parts: the multipart reader is not
terminal, holds no unread lines of its own, and — counting any pushback
kept by the drained previous part — exactly the serialization of the
remaining parts is still to be consumed. -/
def InvM (B : Bytes) (m : MReader) (s : ByteStream)
    (rem : List PartSpec) : Prop :=
  m.boundary = dashBoundary B ∧ m.atEof = false ∧ m.unread = [] ∧
    ((m.lastPart = none ∧ s.data = serializeRest B rem) ∨
     (∃ r : BPReader, m.lastPart = some (.body r) ∧ r.atEof = true ∧
       ((r.unread = [] ∧ s.data = serializeRest B rem) ∨
        (r.unread = [nextLineOf B rem] ∧
          s.data = restAfterLine B rem))))

/-- `_maybe_release_last_part` under the invariant: the previous part is
already drained, so only its pushback flows into the reader. -/
theorem maybeRelease_inv {B : Bytes} (m : MReader) (s : ByteStream)
    (rem : List PartSpec) (hInv : InvM B m s rem) (fuel : Nat)
    (hfuel : 1 ≤ fuel) :
    ∃ u, MReader.maybeReleaseLastPart fuel m s =
      .ok (⟨dashBoundary B, false, u, none⟩, s) ∧
      ((u = [] ∧ s.data = serializeRest B rem) ∨
       (u = [nextLineOf B rem] ∧ s.data = restAfterLine B rem)) := by
  obtain ⟨mb, me, mu, ml⟩ := m
  obtain ⟨hb, he, hu, hcase⟩ := hInv
  simp only at hb he hu
  subst hb he hu
  obtain ⟨f, rfl⟩ : ∃ f, fuel = f + 1 := ⟨fuel - 1, by omega⟩
  rcases hcase with ⟨hl, hs⟩ | ⟨r, hl, hre, hcase⟩
  · simp only at hl
    subst hl
    exact ⟨[], by rw [MReader.maybeReleaseLastPart], Or.inl ⟨rfl, hs⟩⟩
  · simp only at hl
    subst hl
    refine ⟨r.unread, ?_, ?_⟩
    · rw [MReader.maybeReleaseLastPart]
      show (if (PReader.body r).atEofP = true then _ else _) = _
      rw [show (PReader.body r).atEofP = true from hre]
      simp [PReader.unreadP]
    · rcases hcase with ⟨h1, h2⟩ | ⟨h1, h2⟩
      · exact Or.inl ⟨h1, h2⟩
      · exact Or.inr ⟨h1, h2⟩

/-- `_read_boundary` consumes the continuation boundary line (from the
pushback buffer or the wire) when parts remain. -/
theorem readBoundary_cont {B : Bytes} (hB : BoundaryOk B) (u : List Bytes)
    (p : PartSpec) (rest : List PartSpec) (s : ByteStream)
    (hcase : (u = [] ∧ s.data = serializeRest B (p :: rest)) ∨
      (u = [nextLineOf B (p :: rest)] ∧
        s.data = restAfterLine B (p :: rest))) :
    MReader.readBoundaryStep ⟨dashBoundary B, false, u, none⟩ s =
      .ok (⟨dashBoundary B, false, [], none⟩,
        ⟨restAfterLine B (p :: rest)⟩) := by
  rcases hcase with ⟨hu, hs⟩ | ⟨hu, hs⟩
  · subst hu
    obtain ⟨sd⟩ := s
    simp only at hs
    subst hs
    unfold MReader.readBoundaryStep MReader.mReadline
    simp only [List.getLast?_nil]
    have hshape : serializeRest B (p :: rest) =
        dashBoundary B ++ [CRb, LFb] ++ restAfterLine B (p :: rest) := by
      rw [serializeRest_decomp]
      rfl
    rw [hshape, contLine_readline hB]
    simp only [rstripWS_contLine hB]
    simp
  · subst hu
    obtain ⟨sd⟩ := s
    simp only at hs
    subst hs
    unfold MReader.readBoundaryStep MReader.mReadline
    simp only [List.getLast?_singleton]
    have hnl : nextLineOf B (p :: rest) = dashBoundary B ++ [CRb, LFb] := rfl
    simp only [hnl, rstripWS_contLine hB]
    simp

/-- `_read_boundary` consumes the final boundary line and flips the
reader terminal. -/
theorem readBoundary_last {B : Bytes} (hB : BoundaryOk B) (u : List Bytes)
    (s : ByteStream)
    (hcase : (u = [] ∧ s.data = serializeRest B []) ∨
      (u = [nextLineOf B []] ∧ s.data = restAfterLine B [])) :
    MReader.readBoundaryStep ⟨dashBoundary B, false, u, none⟩ s =
      .ok (⟨dashBoundary B, true, [], none⟩, ⟨[]⟩) := by
  have hne : rstripWS (nextLineOf B []) = dashBoundary B ++ [45, 45] := by
    show rstripWS (dashBoundary B ++ [45, 45, CRb, LFb]) = _
    exact rstripWS_lastLine hB
  have hcne : (dashBoundary B ++ [45, 45] : Bytes) ≠ dashBoundary B :=
    fun h => contLine_ne_lastLine B h.symm
  rcases hcase with ⟨hu, hs⟩ | ⟨hu, hs⟩
  · subst hu
    obtain ⟨sd⟩ := s
    simp only at hs
    subst hs
    unfold MReader.readBoundaryStep MReader.mReadline
    simp only [List.getLast?_nil]
    have hshape : serializeRest B ([] : List PartSpec) =
        dashBoundary B ++ [45, 45, CRb, LFb] ++ ([] : Bytes) := by
      simp [serializeRest]
    rw [hshape, lastLine_readline hB]
    have hrs : rstripWS (dashBoundary B ++ [45, 45, CRb, LFb]) =
        dashBoundary B ++ [45, 45] := rstripWS_lastLine hB
    simp only [hrs]
    rw [if_neg hcne]
    simp
  · subst hu
    obtain ⟨sd⟩ := s
    simp only at hs
    subst hs
    unfold MReader.readBoundaryStep MReader.mReadline
    simp only [List.getLast?_singleton]
    simp only [hne]
    rw [if_neg hcne]
    simp [restAfterLine]

/-- `next()` under the invariant with parts remaining: releases the
previous part, consumes the boundary line and the header block, and
hands back a fresh `BodyPartReader` for the next part. -/
theorem mNext_cons {B : Bytes} (hB : BoundaryOk B) (m : MReader)
    (s : ByteStream) (p : PartSpec) (rest : List PartSpec)
    (hInv : InvM B m s (p :: rest)) (fuel : Nat)
    (hfuel : (p.toPartW).headers.length + 2 ≤ fuel) :
    MReader.next fuel m s =
      .ok (some (.body (freshBP B p)),
        ⟨dashBoundary B, false, [], some (.body (freshBP B p))⟩,
        ⟨p.payloadData ++ [CRb, LFb] ++ serializeRest B rest⟩) := by
  obtain ⟨f, rfl⟩ : ∃ f, fuel = f + 1 := ⟨fuel - 1, by omega⟩
  rw [MReader.next]
  rw [show m.atEof = false from hInv.2.1]
  simp only [Bool.false_eq_true, if_false]
  obtain ⟨u, hrel, hucase⟩ := maybeRelease_inv m s (p :: rest) hInv f
    (by omega)
  rw [hrel]
  simp only []
  rw [readBoundary_cont hB u p rest s hucase]
  simp only [Bool.false_eq_true, if_false]
  have hstream : (⟨restAfterLine B (p :: rest)⟩ : ByteStream) =
      ⟨hdrLines (p.toPartW).headers ++ [CRb, LFb] ++
        (p.payloadData ++ [CRb, LFb] ++ serializeRest B rest)⟩ := by
    show ByteStream.mk (partBytes p.toPartW ++ serializeRest B rest) = _
    rw [partBytes_decomp]
    simp [List.append_assoc]
  rw [hstream]
  rw [readHeaders_spec (p.toPartW).headers [] f _ (hdrOk_part p) (by omega)]
  simp only [List.nil_append, getPartReader_part B p]

/-- `next()` under the invariant with no part remaining: the final
boundary line is consumed and nothing is produced. -/
theorem mNext_nil {B : Bytes} (hB : BoundaryOk B) (m : MReader)
    (s : ByteStream) (hInv : InvM B m s []) (fuel : Nat)
    (hfuel : 2 ≤ fuel) :
    MReader.next fuel m s =
      .ok (none, ⟨dashBoundary B, true, [], none⟩, ⟨[]⟩) := by
  obtain ⟨f, rfl⟩ : ∃ f, fuel = f + 1 := ⟨fuel - 1, by omega⟩
  rw [MReader.next]
  rw [show m.atEof = false from hInv.2.1]
  simp only [Bool.false_eq_true, if_false]
  obtain ⟨u, hrel, hucase⟩ := maybeRelease_inv m s [] hInv f (by omega)
  rw [hrel]
  simp only []
  rw [readBoundary_last hB u s hucase]
  rfl

/-- Enough fuel to read the remaining parts. -/
def c1Fuel : List PartSpec → Nat
  | [] => 3
  | p :: rest =>
    c1Fuel rest + (p.payloadData).length + (p.toPartW).headers.length + 8

/-- The client loop over the remaining wire content returns, for every
remaining part in order, the parsed headers and the echoed payload. -/
theorem readAllParts_spec {B : Bytes} (hB : BoundaryOk B) :
    ∀ (rem : List PartSpec) (m : MReader) (s : ByteStream) (fuel : Nat),
    InvM B m s rem → (∀ p ∈ rem, PartSpec.Ok B p) → c1Fuel rem ≤ fuel →
    readAllParts fuel m s =
      .ok (rem.map fun p => ((p.toPartW).headers, p.echoedPayload)) := by
  intro rem
  induction rem with
  | nil =>
    intro m s fuel hInv hok hfuel
    rw [c1Fuel] at hfuel
    obtain ⟨f, rfl⟩ : ∃ f, fuel = f + 1 := ⟨fuel - 1, by omega⟩
    rw [readAllParts]
    rw [mNext_nil hB m s hInv f (by omega)]
    rfl
  | cons p rest ih =>
    intro m s fuel hInv hok hfuel
    rw [c1Fuel] at hfuel
    obtain ⟨f, rfl⟩ : ∃ f, fuel = f + 1 := ⟨fuel - 1, by omega⟩
    rw [readAllParts]
    rw [mNext_cons hB m s p rest hInv f (by omega)]
    simp only []
    have hInv' : ∀ r' : BPReader, r'.atEof = true →
        ((r'.unread = [] ∧
            (⟨serializeRest B rest⟩ : ByteStream).data = serializeRest B rest) →
          InvM B ⟨dashBoundary B, false, [], some (.body r')⟩
            ⟨serializeRest B rest⟩ rest) := by
      intro r' hre ⟨h1, h2⟩
      exact ⟨rfl, rfl, rfl, Or.inr ⟨r', rfl, hre, Or.inl ⟨h1, h2⟩⟩⟩
    cases p with
    | raw d =>
      have hread := read_raw d.length (freshBP B (.raw d)) rfl rfl rfl
        d (serializeRest B rest) rfl f (by
          simp only [PartSpec.payloadData] at hfuel; omega)
      rw [show (PartSpec.payloadData (.raw d)) = d from rfl, hread]
      simp only []
      have hrec := ih ⟨dashBoundary B, false, [],
          some (.body { freshBP B (.raw d) with
            readBytes := d.length, atEof := true })⟩
        ⟨serializeRest B rest⟩ f
        (⟨rfl, rfl, rfl, Or.inr ⟨_, rfl, rfl, Or.inl ⟨rfl, rfl⟩⟩⟩)
        (fun q hq => hok q (by simp [hq])) (by omega)
      rw [hrec]
      rfl
    | text d =>
      obtain ⟨hdLF, hdpre⟩ := hok (.text d) (by simp)
      have hsplit : (⟨d ++ [CRb, LFb] ++ serializeRest B rest⟩ : ByteStream)
          = ⟨d ++ [CRb, LFb] ++ nextLineOf B rest ++ restAfterLine B rest⟩ := by
        rw [serializeRest_decomp]
        simp [List.append_assoc]
      have hbl : nextLineOf B rest = dashBoundary B ++ [CRb, LFb] ∨
          nextLineOf B rest = dashBoundary B ++ [45, 45, CRb, LFb] := by
        cases rest
        · exact Or.inr (by simp [nextLineOf, dashBoundary])
        · exact Or.inl rfl
      have hread := read_noLength hB (freshBP B (.text d)) rfl rfl rfl
        d (nextLineOf B rest) (restAfterLine B rest) hdLF hdpre hbl f
        (by omega)
      rw [show (PartSpec.payloadData (.text d)) = d from rfl, hsplit, hread]
      simp only []
      have hrec := ih ⟨dashBoundary B, false, [],
          some (.body { freshBP B (.text d) with
            atEof := true,
            unread := (freshBP B (.text d)).unread ++ [nextLineOf B rest] })⟩
        ⟨restAfterLine B rest⟩ f
        (⟨rfl, rfl, rfl, Or.inr ⟨_, rfl, rfl,
          Or.inr ⟨by simp [freshBP], rfl⟩⟩⟩)
        (fun q hq => hok q (by simp [hq])) (by omega)
      rw [hrec]
      rfl
    | json d =>
      obtain ⟨hdLF, hdpre⟩ := hok (.json d) (by simp)
      have hsplit : (⟨d ++ [CRb, LFb] ++ serializeRest B rest⟩ : ByteStream)
          = ⟨d ++ [CRb, LFb] ++ nextLineOf B rest ++ restAfterLine B rest⟩ := by
        rw [serializeRest_decomp]
        simp [List.append_assoc]
      have hbl : nextLineOf B rest = dashBoundary B ++ [CRb, LFb] ∨
          nextLineOf B rest = dashBoundary B ++ [45, 45, CRb, LFb] := by
        cases rest
        · exact Or.inr (by simp [nextLineOf, dashBoundary])
        · exact Or.inl rfl
      have hread := read_noLength hB (freshBP B (.json d)) rfl rfl rfl
        d (nextLineOf B rest) (restAfterLine B rest) hdLF hdpre hbl f
        (by omega)
      rw [show (PartSpec.payloadData (.json d)) = d from rfl, hsplit, hread]
      simp only []
      have hrec := ih ⟨dashBoundary B, false, [],
          some (.body { freshBP B (.json d) with
            atEof := true,
            unread := (freshBP B (.json d)).unread ++ [nextLineOf B rest] })⟩
        ⟨restAfterLine B rest⟩ f
        (⟨rfl, rfl, rfl, Or.inr ⟨_, rfl, rfl,
          Or.inr ⟨by simp [freshBP], rfl⟩⟩⟩)
        (fun q hq => hok q (by simp [hq])) (by omega)
      rw [hrec]
      rfl

/-- The full round trip: serialize a writer's parts, construct the
reader from the writer's headers, and read every part back. -/
theorem roundtrip_core {B : Bytes} (hB : BoundaryOk B)
    (ps : List PartSpec) (hne : ps ≠ [])
    (hok : ∀ p ∈ ps, PartSpec.Ok B p) (fuel : Nat)
    (hfuel : c1Fuel ps ≤ fuel) :
    mkMReader (mkWriter B (ps.map PartSpec.toPartW)).headers =
      .ok ⟨dashBoundary B, false, [], none⟩ ∧
    readAllParts fuel ⟨dashBoundary B, false, [], none⟩
        ⟨((mkWriter B (ps.map PartSpec.toPartW)).serialize).flatten⟩ =
      .ok (ps.map fun p => ((p.toPartW).headers, p.echoedPayload)) := by
  refine ⟨mkMReader_writer hB _, ?_⟩
  have hflat := flatten_serialize hB ps hne
  rw [hflat]
  exact readAllParts_spec hB ps _ _ fuel
    ⟨rfl, rfl, rfl, Or.inl ⟨rfl, rfl⟩⟩ hok hfuel

/-! ## Auxiliary lemmas for the remaining claims -/

/-- `rstrip` yields a prefix of its input. -/
theorem dropTrailing_isPrefixOf (P : Nat → Bool) (l : Bytes) :
    (dropTrailing P l).isPrefixOf l = true := by
  rw [List.isPrefixOf_iff_prefix]
  unfold dropTrailing
  conv_rhs => rw [← List.reverse_reverse l,
    ← List.takeWhile_append_dropWhile (p := P) (l := l.reverse)]
  rw [List.reverse_append]
  exact List.prefix_append _ _

/-- Iterated `next()` outputs (used to state terminality). -/
def nextOutputs (fuel : Nat) (m : MReader) (s : ByteStream) :
    Nat → List (Option PReader)
  | 0 => []
  | n + 1 =>
    match MReader.next fuel m s with
    | .error _ => []
    | .ok (op, m', s') => op :: nextOutputs fuel m' s' n

/-- `next()` on a terminal reader returns nothing and changes nothing. -/
theorem next_of_atEof (fuel : Nat) (m : MReader) (s : ByteStream)
    (hEof : m.atEof = true) (hfuel : 1 ≤ fuel) :
    MReader.next fuel m s = .ok (none, m, s) := by
  obtain ⟨f, rfl⟩ : ∃ f, fuel = f + 1 := ⟨fuel - 1, by omega⟩
  rw [MReader.next, hEof]
  simp

/-- Byte length of a nonempty serialized header block. -/
theorem headerBlock_length : ∀ (hs : Headers) (q : Bytes × Bytes),
    (headerBlock (q :: hs)).length =
      ((q :: hs).map fun r => r.1.length + 2 + r.2.length).sum
        + 2 * hs.length := by
  intro hs
  induction hs with
  | nil =>
    intro q
    simp [headerBlock]
    omega
  | cons q2 t2 ih =>
    intro q
    have ih2 := ih q2
    show (q.1 ++ [58, 32] ++ q.2 ++ [CRb, LFb]
      ++ headerBlock (q2 :: t2)).length = _
    simp only [List.length_append, List.map_cons, List.sum_cons,
      List.length_cons, List.length_nil] at ih2 ⊢
    omega

/-- The serialized length of one part matches the spec-modelled
per-part computed length. -/
theorem partCalcLength_correct (p : PartW) (n : Nat)
    (h : partCalcLength? p = some n) : (partBytes p).length = n := by
  unfold partCalcLength? at h
  cases hg : partCalcLength?.guessContentLength?' p.payload with
  | none => rw [hg] at h; exact absurd h (by simp)
  | some k =>
    rw [hg] at h
    simp only [Option.some.injEq] at h
    subst h
    have hpl : (payloadChunks p.payload).flatten.length = k := by
      cases hp : p.payload with
      | raw d =>
        rw [hp] at hg
        unfold partCalcLength?.guessContentLength?' at hg
        simp only [Option.some.injEq] at hg
        simpa [payloadChunks] using hg
      | text d =>
        rw [hp] at hg
        unfold partCalcLength?.guessContentLength?' at hg
        simp only [Option.some.injEq] at hg
        simpa [payloadChunks] using hg
      | json d =>
        rw [hp] at hg
        unfold partCalcLength?.guessContentLength?' at hg
        simp only [Option.some.injEq] at hg
        simpa [payloadChunks] using hg
      | ioStream chunks known =>
        rw [hp] at hg
        unfold partCalcLength?.guessContentLength?' at hg
        by_cases hk : known = true
        · subst hk
          simp only [if_true] at hg
          simp only [Option.some.injEq] at hg
          subst hg
          simp [payloadChunks, List.length_flatten]
        · simp [hk] at hg
    unfold partBytes PartW.serialize partCalcLength?.headerBlockLen
    by_cases hh : p.headers.isEmpty
    · have h0 : p.headers = [] := List.isEmpty_iff.mp hh
      simp [h0, hpl]
      omega
    · have hne : p.headers ≠ [] := fun hc => hh (by simp [hc])
      rw [if_neg hh, if_neg (by simpa using hne)]
      simp only [List.flatten_append, List.flatten_cons, List.flatten_nil,
        List.length_append, List.append_nil, hpl]
      obtain ⟨q, t, hq⟩ : ∃ q t, p.headers = q :: t := by
        cases hph : p.headers with
        | nil => exact absurd hph hne
        | cons a b => exact ⟨a, b, rfl⟩
      rw [hq, headerBlock_length]
      simp only [List.map_cons, List.sum_cons, List.length_cons,
        List.length_nil]
      omega

theorem serialize_flatten_length_aux (bl last : Bytes) :
    ∀ parts : List PartW,
    ((parts.flatMap fun p => bl :: p.serialize) ++ [last, []]).flatten.length
      = (parts.map fun p => bl.length + (partBytes p).length).sum
        + last.length := by
  intro parts
  induction parts with
  | nil => simp
  | cons p t ih =>
    simp only [List.flatMap_cons, List.cons_append, List.flatten_cons,
      List.append_assoc, List.flatten_append, List.length_append,
      List.map_cons, List.sum_cons] at ih ⊢
    simp only [partBytes, List.length_flatten] at ih ⊢
    omega

/-- spec-modelled `calc_content_length` agreement: when every part
exposes a known length, the computed total is exactly the byte length of
the serialized body. -/
theorem calcContentLength_correct (w : MWriter) (hne : w.parts ≠ [])
    (hall : ∀ p ∈ w.parts, (partCalcLength? p).isSome) :
    w.calcContentLength = some (w.serialize.flatten).length := by
  have hgo : ∀ parts : List PartW, (∀ p ∈ parts, (partCalcLength? p).isSome) →
      MWriter.calcContentLength.go (2 + w.boundary.length + 2) parts =
        some ((parts.map fun p =>
          (2 + w.boundary.length + 2) + (partBytes p).length).sum) := by
    intro parts
    induction parts with
    | nil => intro _; rfl
    | cons p t ih =>
      intro hall2
      have hp := hall2 p (by simp)
      obtain ⟨a, ha⟩ := Option.isSome_iff_exists.mp hp
      rw [MWriter.calcContentLength.go, ha,
        ih (fun q hq => hall2 q (by simp [hq]))]
      simp only [List.map_cons, List.sum_cons]
      rw [partCalcLength_correct p a ha]
  unfold MWriter.calcContentLength
  rw [hgo w.parts hall]
  simp only []
  unfold MWriter.serialize
  rw [if_neg (by simpa using hne), serialize_flatten_length_aux]
  have hmap : (w.parts.map fun p =>
        ([45, 45] ++ w.boundary ++ [CRb, LFb] : Bytes).length
          + (partBytes p).length)
      = w.parts.map fun p =>
        (2 + w.boundary.length + 2) + (partBytes p).length := by
    refine congrArg (List.map · w.parts) ?_
    funext p
    simp only [List.length_append, List.length_cons, List.length_nil]
  have hlast : ([45, 45] ++ w.boundary ++ [45, 45] ++ [CRb, LFb] : Bytes).length
      = 2 + w.boundary.length + 4 := by
    simp only [List.length_append, List.length_cons, List.length_nil]
  rw [hmap, hlast]

/-- spec-modelled `calc_content_length` refusal: a single part without a
known length makes the total unavailable. -/
theorem calcContentLength_none (w : MWriter) (p : PartW) (hp : p ∈ w.parts)
    (hnone : partCalcLength? p = none) : w.calcContentLength = none := by
  have hgo : ∀ parts : List PartW, p ∈ parts →
      MWriter.calcContentLength.go (2 + w.boundary.length + 2) parts =
        none := by
    intro parts
    induction parts with
    | nil => intro h; exact absurd h (by simp)
    | cons q t ih =>
      intro hmem
      rcases List.mem_cons.mp hmem with h | h
      · subst h
        rw [MWriter.calcContentLength.go, hnone]
      · rw [MWriter.calcContentLength.go, ih h]
        cases partCalcLength? q <;> rfl
  unfold MWriter.calcContentLength
  rw [hgo w.parts hp]

theorem mReadline_boundary (m : MReader) (s : ByteStream) :
    ((m.mReadline s).2.1).boundary = m.boundary := by
  unfold MReader.mReadline
  cases h : m.unread.getLast? <;> simp [h]

theorem drain_goods : ∀ (goods : List Bytes) (fuel : Nat),
    goods.length + 1 ≤ fuel →
    Feed.drain fuel ⟨goods.map some ++ [none], true⟩ = goods := by
  intro goods
  induction goods with
  | nil =>
    intro fuel hf
    obtain ⟨f, rfl⟩ : ∃ f, fuel = f + 1 := ⟨fuel - 1, by omega⟩
    rw [Feed.drain]
    rfl
  | cons g t ih =>
    intro fuel hf
    obtain ⟨f, rfl⟩ : ∃ f, fuel = f + 1 := ⟨fuel - 1, by omega⟩
    rw [Feed.drain]
    have hnext : Feed.next ⟨(g :: t).map some ++ [none], true⟩ =
        (some g, ⟨t.map some ++ [none], true⟩) := rfl
    rw [hnext]
    simp only []
    rw [ih f (by simp at hf ⊢; omega)]

/-! ## The claims -/

/-- C1 counterexample: a single text part with payload `hello` and
boundary `XYZ`, serialized by the writer and fed byte-for-byte into a
reader constructed from the writer's headers, is read back with payload
`hello\r\n` — not the appended payload `hello`.  The claim's "same
payload bytes" fails for boundary-delimited (text/JSON) parts: the
line-by-line reader keeps the trailing CRLF the writer emits after the
payload. -/
theorem c1_roundtrip_counterexample :
    readAllParts (c1Fuel [PartSpec.text (strBytes "hello")])
        ⟨dashBoundary (strBytes "XYZ"), false, [], none⟩
        ⟨((mkWriter (strBytes "XYZ")
          ([PartSpec.text (strBytes "hello")].map PartSpec.toPartW)).serialize).flatten⟩
      = .ok [((PartSpec.text (strBytes "hello")).toPartW.headers,
          strBytes "hello" ++ [CRb, LFb])]
    ∧ strBytes "hello" ++ [CRb, LFb] ≠ strBytes "hello" := by
  constructor
  · exact (roundtrip_core (by decide) [PartSpec.text (strBytes "hello")]
      (by decide) (by decide) _ le_rfl).2
  · decide

/-- C1 (amended): for every nonempty sequence of raw/text/JSON parts
over a well-formed boundary, where each text/JSON payload is a single
line (no LF) that does not begin with the boundary marker, feeding the
concatenated `serialize()` chunks into a `MultipartReader` built from
the writer's headers yields the same parts in order with the same
headers; raw (length-delimited) payloads are returned exactly, while
text/JSON (boundary-delimited) payloads are returned with the writer's
trailing CRLF appended. -/
theorem c1_roundtrip_amended {B : Bytes} (hB : BoundaryOk B)
    (ps : List PartSpec) (hne : ps ≠ [])
    (hok : ∀ p ∈ ps, PartSpec.Ok B p) (fuel : Nat)
    (hfuel : c1Fuel ps ≤ fuel) :
    mkMReader (mkWriter B (ps.map PartSpec.toPartW)).headers =
      .ok ⟨dashBoundary B, false, [], none⟩ ∧
    readAllParts fuel ⟨dashBoundary B, false, [], none⟩
        ⟨((mkWriter B (ps.map PartSpec.toPartW)).serialize).flatten⟩ =
      .ok (ps.map fun p => ((p.toPartW).headers, p.echoedPayload)) :=
  roundtrip_core hB ps hne hok fuel hfuel

/-- C1 witness: the amended round trip at a concrete writer with a raw
part containing an embedded CRLF and dashes plus a JSON part. -/
theorem c1_roundtrip_amended_witness :
    mkMReader (mkWriter (strBytes "AB")
        ([PartSpec.raw [0, 13, 10, 45], PartSpec.json (strBytes "\x7b\x7d")].map
          PartSpec.toPartW)).headers
      = .ok ⟨dashBoundary (strBytes "AB"), false, [], none⟩ ∧
    readAllParts (c1Fuel [PartSpec.raw [0, 13, 10, 45],
        PartSpec.json (strBytes "\x7b\x7d")])
        ⟨dashBoundary (strBytes "AB"), false, [], none⟩
        ⟨((mkWriter (strBytes "AB")
          ([PartSpec.raw [0, 13, 10, 45], PartSpec.json (strBytes "\x7b\x7d")].map
            PartSpec.toPartW)).serialize).flatten⟩ =
      .ok ([PartSpec.raw [0, 13, 10, 45],
        PartSpec.json (strBytes "\x7b\x7d")].map fun p =>
          ((p.toPartW).headers, p.echoedPayload)) :=
  c1_roundtrip_amended (by decide)
    [PartSpec.raw [0, 13, 10, 45], PartSpec.json (strBytes "\x7b\x7d")]
    (by decide) (by decide) _ le_rfl

/-- The `json.dumps({"a": 1})` bytes of the spec's scenario. -/
def scenarioBody : Bytes := strBytes "\x7b\"a\": 1\x7d"

/-- The spec scenario's writer: three `append_json` parts, boundary
`XYZ`. -/
def scenarioWriter : MWriter :=
  mkWriter (strBytes "XYZ")
    [appendJson scenarioBody, appendJson scenarioBody, appendJson scenarioBody]

/-- C2: `MultipartWriter.serialize` yields, per part in order,
`--boundary\r\n` followed by the part's serialized chunks (header block,
blank-line separator, payload, trailing CRLF, as `PartW.serialize`
produces); after the parts come the final `--boundary--\r\n` marker and
the empty terminator, and a writer with no parts yields only an empty
chunk.  The spec's three-JSON-part scenario serializes to exactly the
quoted byte string. -/
theorem c2_serialize_layout :
    (∀ w : MWriter, w.parts ≠ [] →
      w.serialize = (w.parts.flatMap fun p =>
          ([45, 45] ++ w.boundary ++ [CRb, LFb]) :: p.serialize)
        ++ [[45, 45] ++ w.boundary ++ [45, 45] ++ [CRb, LFb], []]) ∧
    (∀ w : MWriter, w.parts = [] → w.serialize = [[]]) ∧
    scenarioWriter.serialize.flatten =
      strBytes "--XYZ\r\nContent-Type: application/json\r\n\r\n\x7b\"a\": 1\x7d\r\n--XYZ\r\nContent-Type: application/json\r\n\r\n\x7b\"a\": 1\x7d\r\n--XYZ\r\nContent-Type: application/json\r\n\r\n\x7b\"a\": 1\x7d\r\n--XYZ--\r\n" := by
  refine ⟨?_, ?_, ?_⟩
  · intro w h
    unfold MWriter.serialize
    rw [if_neg (by simpa using h)]
  · intro w h
    unfold MWriter.serialize
    rw [if_pos (by simpa using h)]
  · decide

/-- C2 witness: the chunk layout at the scenario writer and at an empty
writer. -/
theorem c2_serialize_layout_witness :
    scenarioWriter.serialize = (scenarioWriter.parts.flatMap fun p =>
        ([45, 45] ++ scenarioWriter.boundary ++ [CRb, LFb]) :: p.serialize)
      ++ [[45, 45] ++ scenarioWriter.boundary ++ [45, 45] ++ [CRb, LFb], []] ∧
    (MWriter.mk [] []).serialize = [[]] :=
  ⟨c2_serialize_layout.1 scenarioWriter (by decide),
   c2_serialize_layout.2.1 ⟨[], []⟩ rfl⟩

/-- C3: a line whose `rstrip(b'\r\n')` equals the boundary or the final
boundary makes `readline()` flip `at_eof`, append the raw line to
`_unread` and return empty; `_maybe_release_last_part` folds a drained
part's pushback into the `MultipartReader`'s own `_unread`; and
`_readline` pops the most recently pushed line before touching the
stream, so the pushed-back boundary line is the next line consumed. -/
theorem c3_boundary_pushback :
    (∀ (r : BPReader) (s : ByteStream),
      r.atEof = false →
      (rstripCRLF (s.readline).1 = r.boundary ∨
        rstripCRLF (s.readline).1 = r.boundary ++ [45, 45]) →
      r.readlineStep s =
        ([], { r with atEof := true, unread := r.unread ++ [(s.readline).1] }, (s.readline).2)) ∧
    (∀ (fuel : Nat) (m : MReader) (r : BPReader) (s : ByteStream),
      1 ≤ fuel → m.lastPart = some (.body r) → r.atEof = true →
      MReader.maybeReleaseLastPart fuel m s =
        .ok ({ m with unread := m.unread ++ r.unread, lastPart := none }, s)) ∧
    (∀ (m : MReader) (u : List Bytes) (l : Bytes) (s : ByteStream),
      m.unread = u ++ [l] →
      m.mReadline s = (l, { m with unread := u }, s)) := by
  refine ⟨?_, ?_, ?_⟩
  · intro r s hEof hmatch
    rcases hsr : s.readline with ⟨line, s2⟩
    rw [hsr] at hmatch
    simp only at hmatch
    unfold BPReader.readlineStep
    rw [hEof]
    simp only [Bool.false_eq_true, if_false, hsr]
    have hpre : r.boundary.isPrefixOf line = true := by
      rw [List.isPrefixOf_iff_prefix]
      have hstrip : rstripCRLF line <+: line := by
        rw [← List.isPrefixOf_iff_prefix]
        exact dropTrailing_isPrefixOf _ _
      rcases hmatch with h | h
      · rw [← h]; exact hstrip
      · exact List.IsPrefix.trans ⟨[45, 45], rfl⟩ (h ▸ hstrip)
    rw [hpre]
    simp only [if_true]
    rw [if_pos hmatch]
  · intro fuel m r s hfuel hlp hre
    obtain ⟨f, rfl⟩ : ∃ f, fuel = f + 1 := ⟨fuel - 1, by omega⟩
    rw [MReader.maybeReleaseLastPart, hlp]
    show (if (PReader.body r).atEofP = true then _ else _) = _
    rw [show (PReader.body r).atEofP = r.atEof from rfl, hre]
    simp [PReader.unreadP]
  · intro m u l s hu
    unfold MReader.mReadline
    rw [hu]
    simp

/-- C3 witness: the readline flip at a concrete boundary line, the
pushback flow at a concrete drained part, and the pop order of
`_readline`. -/
theorem c3_boundary_pushback_witness :
    (BPReader.readlineStep ⟨[45, 45, 88], [], false, none, 0, []⟩
        ⟨[45, 45, 88, 13, 10, 65]⟩ =
      ([], ⟨[45, 45, 88], [], true, none, 0, [[45, 45, 88, 13, 10]]⟩,
        ⟨[65]⟩)) ∧
    (MReader.maybeReleaseLastPart 1
        ⟨[45, 45, 88], false, [[1]],
          some (.body ⟨[45, 45, 88], [], true, none, 0, [[2]]⟩)⟩ ⟨[]⟩ =
      .ok (⟨[45, 45, 88], false, [[1], [2]], none⟩, ⟨[]⟩)) ∧
    (MReader.mReadline ⟨[45, 45, 88], false, [[1], [2]], none⟩ ⟨[9]⟩ =
      ([2], ⟨[45, 45, 88], false, [[1]], none⟩, ⟨[9]⟩)) := by
  refine ⟨?_, ?_, ?_⟩
  · have h := c3_boundary_pushback.1 ⟨[45, 45, 88], [], false, none, 0, []⟩
      ⟨[45, 45, 88, 13, 10, 65]⟩ rfl (Or.inl (by decide))
    simpa using h
  · exact c3_boundary_pushback.2.1 1
      ⟨[45, 45, 88], false, [[1]],
        some (.body ⟨[45, 45, 88], [], true, none, 0, [[2]]⟩)⟩
      ⟨[45, 45, 88], [], true, none, 0, [[2]]⟩ ⟨[]⟩
      (by omega) rfl rfl
  · exact c3_boundary_pushback.2.2 ⟨[45, 45, 88], false, [[1], [2]], none⟩
      [[1]] [2] ⟨[9]⟩ rfl

/-- C4: `_read_boundary` on a line whose `rstrip()` is the final
boundary flips `_at_eof`; a terminal reader's `next()` returns nothing
and leaves reader and stream untouched; hence every subsequent `next()`
call also yields nothing. -/
theorem c4_terminal :
    (∀ (m : MReader) (s : ByteStream),
      rstripWS ((m.mReadline s).1) = m.boundary ++ [45, 45] →
      m.readBoundaryStep s =
        .ok ({ (m.mReadline s).2.1 with atEof := true },
          (m.mReadline s).2.2)) ∧
    (∀ (fuel : Nat) (m : MReader) (s : ByteStream),
      m.atEof = true → 1 ≤ fuel →
      MReader.next fuel m s = .ok (none, m, s)) ∧
    (∀ (fuel n : Nat) (m : MReader) (s : ByteStream),
      m.atEof = true → 1 ≤ fuel →
      nextOutputs fuel m s n = List.replicate n none) := by
  refine ⟨?_, ?_, ?_⟩
  · intro m s hmatch
    have hbd := mReadline_boundary m s
    rcases hsr : m.mReadline s with ⟨line, m1, s1⟩
    rw [hsr] at hmatch hbd
    simp only at hmatch hbd ⊢
    unfold MReader.readBoundaryStep
    rw [hsr]
    simp only [hmatch, hbd]
    have hne : (m.boundary ++ [45, 45] : Bytes) ≠ m.boundary := by
      intro h
      have := congrArg List.length h
      simp at this
    rw [if_neg hne]
    simp
  · exact fun fuel m s h hf => next_of_atEof fuel m s h hf
  · intro fuel n
    induction n with
    | zero => intro m s h hf; rfl
    | succ k ihn =>
      intro m s h hf
      rw [nextOutputs, next_of_atEof fuel m s h hf]
      simp only []
      rw [ihn m s h hf]
      rfl

/-- C4 witness: the final boundary line flips a concrete reader
terminal, and a terminal reader yields nothing three times in a row. -/
theorem c4_terminal_witness :
    (MReader.readBoundaryStep ⟨[45, 45, 88], false, [], none⟩
        ⟨[45, 45, 88, 45, 45, 13, 10]⟩ =
      .ok (⟨[45, 45, 88], true, [], none⟩, ⟨[]⟩)) ∧
    (MReader.next 7 ⟨[45, 45, 88], true, [], none⟩ ⟨[3]⟩ =
      .ok (none, ⟨[45, 45, 88], true, [], none⟩, ⟨[3]⟩)) ∧
    (nextOutputs 7 ⟨[45, 45, 88], true, [], none⟩ ⟨[3]⟩ 3 =
      List.replicate 3 none) := by
  refine ⟨?_, ?_, ?_⟩
  · have h := c4_terminal.1 ⟨[45, 45, 88], false, [], none⟩
      ⟨[45, 45, 88, 45, 45, 13, 10]⟩ (by decide)
    simpa using h
  · exact c4_terminal.2.1 7 ⟨[45, 45, 88], true, [], none⟩ ⟨[3]⟩ rfl
      (by omega)
  · exact c4_terminal.2.2 7 3 ⟨[45, 45, 88], true, [], none⟩ ⟨[3]⟩ rfl
      (by omega)

/-- C5 counterexample: on a `BodyPartReader` that is already at eof and
has no declared `Content-Length` (a fully consumed boundary-delimited
part), `read_chunk` does not raise: the `at_eof` early return fires
before the Content-Length assertion, yielding the empty string. -/
theorem c5_read_chunk_counterexample :
    BPReader.readChunk ⟨[45, 45, 98], [], true, none, 0, []⟩ ⟨[1, 2]⟩ 8192 =
      .ok ([], ⟨[45, 45, 98], [], true, none, 0, []⟩, ⟨[1, 2]⟩) ∧
    (⟨[45, 45, 98], [], true, none, 0, []⟩ : BPReader).lengthOpt = none ∧
    ∀ e : RErr,
      BPReader.readChunk ⟨[45, 45, 98], [], true, none, 0, []⟩ ⟨[1, 2]⟩ 8192 ≠
        .error e :=
  ⟨rfl, rfl, fun _ h => by simp [BPReader.readChunk] at h⟩

/-- C5 (amended): on a reader that is *not yet at eof*, `read_chunk`
raises when `Content-Length` was never declared; a reader already at eof
returns empty without error.  Otherwise `read_chunk` reads up to
`min(size, declared_length - read_bytes)` bytes, advances `read_bytes`
by that amount, and flips `at_eof` exactly when `read_bytes` reaches the
declared length.  A full `read()` of a length-delimited part ends with
`read_bytes` equal to the declared length and consumes the mandatory
trailing CRLF, raising an integrity error when the bytes after the
payload are anything else. -/
theorem c5_read_chunk_amended :
    (∀ (r : BPReader) (s : ByteStream) (size : Nat),
      r.atEof = false → r.lengthOpt = none →
      r.readChunk s size = .error .assertError) ∧
    (∀ (r : BPReader) (s : ByteStream) (size : Nat),
      r.atEof = true → r.readChunk s size = .ok ([], r, s)) ∧
    (∀ (r : BPReader) (s : ByteStream) (size L : Nat),
      r.atEof = false → r.lengthOpt = some L →
      r.readChunk s size =
        .ok (s.data.take (min size (L - r.readBytes)), { r with readBytes := r.readBytes + min size (L - r.readBytes), atEof := decide (r.readBytes + min size (L - r.readBytes) = L) }, ⟨s.data.drop (min size (L - r.readBytes))⟩)) ∧
    (∀ (L : Nat) (r : BPReader) (d rest : Bytes) (fuel : Nat),
      r.atEof = false → r.lengthOpt = some L → r.readBytes = 0 →
      d.length = L → L + 2 ≤ fuel →
      BPReader.read fuel r ⟨d ++ [CRb, LFb] ++ rest⟩ =
        .ok (d, { r with readBytes := L, atEof := true }, ⟨rest⟩)) ∧
    (∀ (L : Nat) (r : BPReader) (d rest : Bytes) (fuel : Nat),
      r.atEof = false → r.lengthOpt = some L → r.readBytes = 0 →
      d.length = L → L + 2 ≤ fuel →
      (ByteStream.readline ⟨rest⟩).1 ≠ [CRb, LFb] →
      BPReader.read fuel r ⟨d ++ rest⟩ = .error .assertError) := by
  refine ⟨?_, ?_, ?_, ?_, ?_⟩
  · intro r s size hEof hL
    unfold BPReader.readChunk
    rw [hEof]
    simp [hL]
  · intro r s size hEof
    unfold BPReader.readChunk
    rw [hEof]
    simp
  · intro r s size L hEof hL
    unfold BPReader.readChunk
    rw [hEof]
    simp [hL, ByteStream.read]
  · intro L r d rest fuel hEof hL hrb hd hfuel
    exact read_raw L r hEof hL hrb d rest hd fuel hfuel
  · intro L r d rest fuel hEof hL hrb hd hfuel hterm
    rw [BPReader.read, hEof]
    simp only [Bool.false_eq_true, if_false, hL]
    rw [readChunks_spec L L fuel r d rest [] hEof hL (by omega) hd hfuel]
    simp only []
    rcases hrl : ByteStream.readline ⟨rest⟩ with ⟨tl, s2⟩
    rw [hrl] at hterm
    simp only at hterm
    rw [if_neg hterm]

/-- C5 witness: the amended behaviors at concrete readers: assertion
error on a fresh length-less reader, the advance arithmetic, the full
read with trailing CRLF, and the integrity error when it is absent. -/
theorem c5_read_chunk_amended_witness :
    (BPReader.readChunk ⟨[45, 45, 98], [], false, none, 0, []⟩ ⟨[1]⟩ 4 =
      .error .assertError) ∧
    (BPReader.readChunk ⟨[45, 45, 98], [], true, some 3, 1, []⟩ ⟨[1]⟩ 4 =
      .ok ([], ⟨[45, 45, 98], [], true, some 3, 1, []⟩, ⟨[1]⟩)) ∧
    (BPReader.readChunk ⟨[45, 45, 98], [], false, some 3, 0, []⟩
        ⟨[7, 8, 9, 13, 10]⟩ 2 =
      .ok ([7, 8], ⟨[45, 45, 98], [], false, some 3, 2, []⟩, ⟨[9, 13, 10]⟩)) ∧
    (BPReader.read 5 ⟨[45, 45, 98], [], false, some 3, 0, []⟩
        ⟨[7, 8, 9, 13, 10, 4]⟩ =
      .ok ([7, 8, 9], ⟨[45, 45, 98], [], true, some 3, 3, []⟩, ⟨[4]⟩)) ∧
    (BPReader.read 5 ⟨[45, 45, 98], [], false, some 3, 0, []⟩
        ⟨[7, 8, 9, 0, 10]⟩ = .error .assertError) := by
  refine ⟨?_, ?_, ?_, ?_, ?_⟩
  · exact c5_read_chunk_amended.1 ⟨[45, 45, 98], [], false, none, 0, []⟩
      ⟨[1]⟩ 4 rfl rfl
  · exact c5_read_chunk_amended.2.1 ⟨[45, 45, 98], [], true, some 3, 1, []⟩
      ⟨[1]⟩ 4 rfl
  · have h := c5_read_chunk_amended.2.2.1
      ⟨[45, 45, 98], [], false, some 3, 0, []⟩ ⟨[7, 8, 9, 13, 10]⟩ 2 3 rfl rfl
    simpa using h
  · have h := c5_read_chunk_amended.2.2.2.1 3
      ⟨[45, 45, 98], [], false, some 3, 0, []⟩ [7, 8, 9] [4] 5 rfl rfl rfl
      (by decide) (by omega)
    simpa using h
  · have h := c5_read_chunk_amended.2.2.2.2 3
      ⟨[45, 45, 98], [], false, some 3, 0, []⟩ [7, 8, 9] [0, 10] 5 rfl rfl rfl
      (by decide) (by omega) (by decide)
    simpa using h

/-- C6: `_get_part_reader` dispatch — a part whose own `Content-Type`
has top-level media type `multipart` is surfaced as a nested
`MultipartReader` state over the same stream (never as a plain
`BodyPartReader`), and any other part (including one with no
`Content-Type` at all) is surfaced as a `BodyPartReader` scoped to the
outer boundary. -/
theorem c6_dispatch :
    ∀ (oB : Bytes) (hs : Headers),
      (mimeTypeOf ((hget hs CONTENT_TYPE).getD []) = strBytes "multipart" →
        (∀ r : BPReader, getPartReader oB hs ≠ .ok (.body r)) ∧
        (∀ b : Bytes, getBoundaryOf hs = .ok b →
          getPartReader oB hs = .ok (.multi ([45, 45] ++ b) false [] none))) ∧
      (mimeTypeOf ((hget hs CONTENT_TYPE).getD []) ≠ strBytes "multipart" →
        getPartReader oB hs = Except.map PReader.body (mkBPReader oB hs)) := by
  intro oB hs
  constructor
  · intro hmt
    constructor
    · intro r hcontra
      unfold getPartReader at hcontra
      rw [if_pos hmt] at hcontra
      cases hgb : getBoundaryOf hs <;> rw [hgb] at hcontra <;> simp at hcontra
    · intro b hgb
      unfold getPartReader
      rw [if_pos hmt, hgb]
  · intro hmt
    unfold getPartReader
    rw [if_neg hmt]
    cases h : mkBPReader oB hs <;> simp [Except.map]

/-- C6 witness: a `multipart/mixed` part becomes a nested reader and an
`application/json` part (as well as one with no Content-Type) becomes a
body-part reader. -/
theorem c6_dispatch_witness :
    (getPartReader [45, 45, 88]
        [(CONTENT_TYPE, strBytes "multipart/mixed; boundary=q")] =
      .ok (.multi [45, 45, 113] false [] none)) ∧
    (getPartReader [45, 45, 88] [(CONTENT_TYPE, strBytes "application/json")] =
      Except.map PReader.body
        (mkBPReader [45, 45, 88]
          [(CONTENT_TYPE, strBytes "application/json")])) ∧
    (getPartReader [45, 45, 88] [] =
      Except.map PReader.body (mkBPReader [45, 45, 88] [])) := by
  refine ⟨?_, ?_, ?_⟩
  · have h := ((c6_dispatch [45, 45, 88]
      [(CONTENT_TYPE, strBytes "multipart/mixed; boundary=q")]).1
        (by decide)).2 [113] rfl
    simpa using h
  · exact (c6_dispatch [45, 45, 88]
      [(CONTENT_TYPE, strBytes "application/json")]).2 (by decide)
  · exact (c6_dispatch [45, 45, 88] []).2 (by decide)

/-- C7 counterexample: a part whose `Content-Encoding` header is present
but empty is passed through unchanged by `decode` — the falsy check
`if not encoding` treats the empty value like an absent header, so this
"other Content-Encoding value" does not raise. -/
theorem c7_decode_counterexample :
    BPReader.decode ⟨[45, 45, 98], [(CONTENT_ENCODING, [])], false, none, 0, []⟩
        [1, 2, 3] = .ok (.plain [1, 2, 3]) ∧
    hget [(CONTENT_ENCODING, ([] : Bytes))] CONTENT_ENCODING = some [] ∧
    ([] : Bytes) ≠ strBytes "deflate" ∧ ([] : Bytes) ≠ strBytes "gzip" :=
  ⟨rfl, rfl, by decide, by decide⟩

/-- C7 (amended): `decode(data)` returns the data unchanged when the
`Content-Encoding` header is absent *or empty*; a `deflate` value
dispatches to raw-deflate inflation and a `gzip` value to gzip
inflation; every other non-empty value raises (`AttributeError`, from
the `decode_<name>` lookup). -/
theorem c7_decode_amended :
    (∀ (r : BPReader) (data : Bytes),
      hget r.headers CONTENT_ENCODING = none →
      r.decode data = .ok (.plain data)) ∧
    (∀ (r : BPReader) (data : Bytes),
      hget r.headers CONTENT_ENCODING = some [] →
      r.decode data = .ok (.plain data)) ∧
    (∀ (r : BPReader) (data : Bytes),
      hget r.headers CONTENT_ENCODING = some (strBytes "deflate") →
      r.decode data = .ok (.inflateRaw data)) ∧
    (∀ (r : BPReader) (data : Bytes),
      hget r.headers CONTENT_ENCODING = some (strBytes "gzip") →
      r.decode data = .ok (.gunzip data)) ∧
    (∀ (r : BPReader) (data enc : Bytes),
      hget r.headers CONTENT_ENCODING = some enc →
      enc ≠ [] → enc ≠ strBytes "deflate" → enc ≠ strBytes "gzip" →
      r.decode data = .error .attrError) := by
  refine ⟨?_, ?_, ?_, ?_, ?_⟩
  · intro r data h
    unfold BPReader.decode
    rw [h]
  · intro r data h
    unfold BPReader.decode
    rw [h]
    simp
  · intro r data h
    unfold BPReader.decode
    rw [h]
    simp only []
    rw [if_neg (by decide)]
    simp
  · intro r data h
    unfold BPReader.decode
    rw [h]
    simp only []
    rw [if_neg (by decide), if_neg (by decide)]
    simp
  · intro r data enc h hne hdef hgz
    unfold BPReader.decode
    rw [h]
    simp only []
    rw [if_neg hne, if_neg hdef, if_neg hgz]

/-- C7 witness: the amended dispatch at concrete readers for each case:
no header, deflate, gzip, and an unknown encoding. -/
theorem c7_decode_amended_witness :
    (BPReader.decode ⟨[45, 45, 98], [], false, none, 0, []⟩ [5] =
      .ok (.plain [5])) ∧
    (BPReader.decode ⟨[45, 45, 98], [(CONTENT_ENCODING, strBytes "deflate")],
        false, none, 0, []⟩ [5] = .ok (.inflateRaw [5])) ∧
    (BPReader.decode ⟨[45, 45, 98], [(CONTENT_ENCODING, strBytes "gzip")],
        false, none, 0, []⟩ [5] = .ok (.gunzip [5])) ∧
    (BPReader.decode ⟨[45, 45, 98], [(CONTENT_ENCODING, strBytes "br")],
        false, none, 0, []⟩ [5] = .error .attrError) := by
  refine ⟨?_, ?_, ?_, ?_⟩
  · exact c7_decode_amended.1 ⟨[45, 45, 98], [], false, none, 0, []⟩ [5] rfl
  · exact c7_decode_amended.2.2.1
      ⟨[45, 45, 98], [(CONTENT_ENCODING, strBytes "deflate")],
        false, none, 0, []⟩ [5] rfl
  · exact c7_decode_amended.2.2.2.1
      ⟨[45, 45, 98], [(CONTENT_ENCODING, strBytes "gzip")],
        false, none, 0, []⟩ [5] rfl
  · exact c7_decode_amended.2.2.2.2
      ⟨[45, 45, 98], [(CONTENT_ENCODING, strBytes "br")],
        false, none, 0, []⟩ [5] (strBytes "br") rfl (by decide) (by decide)
      (by decide)

/-- C8: the spec-modelled `calc_content_length` (absent from the source
tree) sums, per part, the `--boundary\r\n` prefix overhead plus the
part's own computed serialized length, plus the `--boundary--\r\n`
closing overhead; on a writer whose parts all expose a known payload
length this equals exactly the byte length of the serialized body, and
one part with an unknowable length (a stream `fstat` cannot size) makes
the total unavailable. -/
theorem c8_calc_content_length :
    (∀ w : MWriter, w.parts ≠ [] →
      (∀ p ∈ w.parts, (partCalcLength? p).isSome) →
      w.calcContentLength = some (w.serialize.flatten).length) ∧
    (∀ (w : MWriter) (p : PartW), p ∈ w.parts →
      partCalcLength? p = none → w.calcContentLength = none) :=
  ⟨calcContentLength_correct, calcContentLength_none⟩

/-- C8 witness: the total at the scenario writer, and the refusal for a
writer holding a stream part of unknown size. -/
theorem c8_calc_content_length_witness :
    scenarioWriter.calcContentLength =
      some (scenarioWriter.serialize.flatten).length ∧
    (MWriter.mk [(CONTENT_TYPE, strBytes "multipart/mixed; boundary=XYZ")]
        [⟨[], .ioStream [[1, 2]] false⟩]).calcContentLength = none :=
  ⟨c8_calc_content_length.1 scenarioWriter (by decide) (by decide),
   c8_calc_content_length.2
     (MWriter.mk [(CONTENT_TYPE, strBytes "multipart/mixed; boundary=XYZ")]
       [⟨[], .ioStream [[1, 2]] false⟩])
     ⟨[], .ioStream [[1, 2]] false⟩ (by simp) rfl⟩

/-- C9: draining a quiescent `Feed` yields exactly the whitespace-
trimmed non-empty chunks of the source in arrival order, after which the
`None` sentinel is returned; `next()` on an inactive feed returns the
sentinel without touching the queue; and `is_active()` is false exactly
when end-of-stream has been observed and the queue is empty. -/
theorem c9_feed :
    (∀ (chunks : List Bytes) (fuel : Nat),
      ((chunks.map stripWS).filter (· ≠ [])).length + 1 ≤ fuel →
      Feed.drain fuel (feedOfSource chunks) =
        (chunks.map stripWS).filter (· ≠ [])) ∧
    (∀ f : Feed, f.isActive = false → f.next = (none, f)) ∧
    (∀ f : Feed, f.isActive = false ↔ (f.eof = true ∧ f.queue = [])) := by
  refine ⟨?_, ?_, ?_⟩
  · intro chunks fuel hf
    exact drain_goods _ fuel hf
  · intro f h
    unfold Feed.next
    rw [h]
    simp
  · intro f
    unfold Feed.isActive
    constructor
    · intro h
      simp only [Bool.not_eq_false', Bool.and_eq_true] at h
      exact ⟨h.1, List.isEmpty_iff.mp h.2⟩
    · intro ⟨h1, h2⟩
      simp [h1, h2]

/-- C9 witness: the feed over a concrete source with whitespace-only and
padded chunks, an inactive feed's `next`, and the `is_active`
characterization at a drained feed. -/
theorem c9_feed_witness :
    Feed.drain 3 (feedOfSource [strBytes " a ", strBytes "  ", strBytes "b"]) =
      [strBytes "a", strBytes "b"] ∧
    Feed.next ⟨[], true⟩ = (none, ⟨[], true⟩) ∧
    (Feed.isActive ⟨[], true⟩ = false ↔
      ((⟨[], true⟩ : Feed).eof = true ∧ (⟨[], true⟩ : Feed).queue = [])) := by
  refine ⟨?_, ?_, ?_⟩
  · have h := c9_feed.1 [strBytes " a ", strBytes "  ", strBytes "b"] 3
      (by decide)
    simpa using h
  · exact c9_feed.2.1 ⟨[], true⟩ rfl
  · exact c9_feed.2.2 ⟨[], true⟩

/-- C10 (implicit): `read_chunk` always advances `read_bytes` by the
full requested amount `min(size, declared_length - read_bytes)`,
regardless of how many bytes the stream actually delivered (the chunk is
whatever `content.read` returned); consequently a part can reach
`at_eof` — and be considered exhausted — after delivering strictly fewer
than `declared_length` payload bytes, as the concrete short-stream run
in the second conjunct shows. -/
theorem c10_read_chunk_advance :
    (∀ (r : BPReader) (s : ByteStream) (size L : Nat),
      r.atEof = false → r.lengthOpt = some L →
      ∃ chunk r' s', BPReader.readChunk r s size = .ok (chunk, r', s') ∧
        r'.readBytes = r.readBytes + min size (L - r.readBytes) ∧
        (r'.atEof = true ↔ r'.readBytes = L) ∧
        chunk = s.data.take (min size (L - r.readBytes))) ∧
    (BPReader.readChunk ⟨[45, 45, 98], [], false, some 5, 0, []⟩ ⟨[1, 2]⟩
        8192 =
      .ok ([1, 2], ⟨[45, 45, 98], [], true, some 5, 5, []⟩, ⟨[]⟩) ∧
      ([1, 2] : Bytes).length < 5) := by
  constructor
  · intro r s size L hEof hL
    refine ⟨s.data.take (min size (L - r.readBytes)), { r with readBytes := r.readBytes + min size (L - r.readBytes), atEof := decide (r.readBytes + min size (L - r.readBytes) = L) }, ⟨s.data.drop (min size (L - r.readBytes))⟩, ?_, rfl, ?_, rfl⟩
    · unfold BPReader.readChunk
      rw [hEof]
      simp [hL, ByteStream.read]
    · simp
  · exact ⟨rfl, by decide⟩

/-- C10 witness: the advance arithmetic at a concrete reader whose
stream holds fewer bytes than the declared length. -/
theorem c10_read_chunk_advance_witness :
    ∃ (chunk : Bytes) (r' : BPReader) (s' : ByteStream),
      BPReader.readChunk ⟨[45, 45, 98], [], false, some 5, 0, []⟩ ⟨[1, 2]⟩
          8192 = .ok (chunk, r', s') ∧
      r'.readBytes = 0 + min 8192 (5 - 0) ∧
      (r'.atEof = true ↔ r'.readBytes = 5) ∧
      chunk = ([1, 2] : Bytes).take (min 8192 (5 - 0)) :=
  c10_read_chunk_advance.1 ⟨[45, 45, 98], [], false, some 5, 0, []⟩ ⟨[1, 2]⟩
    8192 5 rfl rfl

end Aiocouchdb
